import Mathlib

/-!
Verification of the Minesweeper engine (src/Games/Minesweeper/minesweeper.js).

The JavaScript game state (module-level variables `grid`, `rows`, `cols`,
`mineCount`, `flagCount`, `revealedCount`, `gameOver`, `gameStarted`,
`hints`, `timer`, mode flags) is embedded as a Lean structure `GameState`;
the grid is a total function from coordinates to `Cell` (out-of-range
coordinates never reach the mutating operations, mirroring the DOM wiring).
`Math.random()`-driven choices are passed in explicitly: mine placement
takes a stream of candidate coordinates, the hint takes a choice index.
The recursive flood fill is embedded with an explicit fuel parameter; fuel
`rows*cols + 1` is proven sufficient (the recursion depth bound).
-/

namespace Minesweeper

/-- One grid position, mirroring the cell objects built by `createGrid`. -/
structure Cell where
  isMine : Bool
  isRevealed : Bool
  isFlagged : Bool
  neighborMines : Nat
deriving DecidableEq, Repr

/-- The fresh cell pushed by `createGrid`. -/
def newCell : Cell := ⟨false, false, false, 0⟩

/-- The module-level game state of minesweeper.js.  `outcome` records the
argument of the unique `endGame` call (`none` = game not over, so the JS
`gameOver` boolean is `outcome.isSome`). -/
structure GameState where
  rows : Nat
  cols : Nat
  mineCount : Nat
  grid : Nat → Nat → Cell
  flagCount : Int
  revealedCount : Nat
  outcome : Option Bool
  gameStarted : Bool
  hints : Nat
  isTimeAttack : Bool
  timer : Int

/-- JS `gameOver` flag: set exactly by `endGame`. -/
def GameState.gameOver (s : GameState) : Bool := s.outcome.isSome

/-- Functional update of one grid entry (JS `grid[r][c] = ...`). -/
def setCell (g : Nat → Nat → Cell) (r c : Nat) (cell : Cell) : Nat → Nat → Cell :=
  fun r' c' => if r' = r ∧ c' = c then cell else g r' c'

/-- The eight neighbor offsets produced by the `for dr / for dc` loops with
`dr === 0 && dc === 0` skipped, in source iteration order. -/
def offsets : List (Int × Int) :=
  [(-1, -1), (-1, 0), (-1, 1), (0, -1), (0, 1), (1, -1), (1, 0), (1, 1)]

/-- The in-bounds test `nr >= 0 && nr < rows && nc >= 0 && nc < cols`. -/
def inb (rows cols : Nat) (r c : Int) : Prop :=
  0 ≤ r ∧ r < (rows : Int) ∧ 0 ≤ c ∧ c < (cols : Int)

instance (rows cols : Nat) (r c : Int) : Decidable (inb rows cols r c) := by
  unfold inb; infer_instance

/-- `countAdjacentMines(row, col)`: count of in-bounds neighbor cells that
carry a mine. -/
def countAdjacentMines (rows cols : Nat) (g : Nat → Nat → Cell) (row col : Nat) : Nat :=
  offsets.countP (fun d =>
    decide (inb rows cols ((row : Int) + d.1) ((col : Int) + d.2)) &&
      (g ((row : Int) + d.1).toNat ((col : Int) + d.2).toNat).isMine)

/-- `calculateNumbers()`: set `neighborMines` of every in-bounds non-mine
cell to its adjacent mine count (the loop writes only `neighborMines`, so
the in-place mutation is order-independent and pointwise). -/
def calculateNumbers (rows cols : Nat) (g : Nat → Nat → Cell) : Nat → Nat → Cell :=
  fun r c =>
    if r < rows ∧ c < cols ∧ (g r c).isMine = false then
      { g r c with neighborMines := countAdjacentMines rows cols g r c }
    else g r c

/-- `getNeighbors(row, col)`: the in-bounds neighbor coordinates, in source
push order. -/
def getNeighbors (rows cols : Nat) (row col : Nat) : List (Nat × Nat) :=
  offsets.filterMap (fun d =>
    if inb rows cols ((row : Int) + d.1) ((col : Int) + d.2) then
      some (((row : Int) + d.1).toNat, ((col : Int) + d.2).toNat)
    else none)

/-- The rejection-sampling loop body of `placeMines`: consume the stream of
random draws until `mineCount` mines are placed.  A draw `(x, y)` denotes
the cell `(x % rows, y % cols)`, the image of `Math.floor(Math.random()*rows)`
/ `...cols`.  Returns the grid together with the number of mines placed
(`placed < mineTarget` means the stream ran out, i.e. the JS loop would
still be spinning). -/
def placeMinesAux (rows cols mineTarget firstRow firstCol : Nat) :
    List (Nat × Nat) → (Nat → Nat → Cell) → Nat → ((Nat → Nat → Cell) × Nat)
  | rng, g, placed =>
    if mineTarget ≤ placed then (g, placed)
    else
      match rng with
      | [] => (g, placed)
      | (x, y) :: rest =>
        let r := x % rows
        let c := y % cols
        let isFirstClick :=
          ((r : Int) - (firstRow : Int)).natAbs ≤ 1 ∧ ((c : Int) - (firstCol : Int)).natAbs ≤ 1
        if (g r c).isMine = false ∧ ¬isFirstClick then
          placeMinesAux rows cols mineTarget firstRow firstCol rest
            (setCell g r c { g r c with isMine := true }) (placed + 1)
        else
          placeMinesAux rows cols mineTarget firstRow firstCol rest g placed

/-- `placeMines(firstRow, firstCol)` followed by `calculateNumbers()`:
`some` of the updated state when the loop completed (exactly `mineCount`
mines placed), `none` when the supplied random stream was exhausted first
(the JS loop would not have returned). -/
def placeMines (rng : List (Nat × Nat)) (s : GameState) (firstRow firstCol : Nat) :
    Option GameState :=
  if (placeMinesAux s.rows s.cols s.mineCount firstRow firstCol rng s.grid 0).2 =
      s.mineCount then
    some { s with
      grid := calculateNumbers s.rows s.cols
        (placeMinesAux s.rows s.cols s.mineCount firstRow firstCol rng s.grid 0).1,
      gameStarted := true }
  else none

/-- `revealCell(row, col)`: bounds check, skip revealed/flagged cells, mark
revealed, bump `revealedCount`, and when the cell's `neighborMines` is zero
recursively reveal the eight neighbors in source order.  `fuel` bounds the
recursion depth; it is consumed once per nesting level exactly as the JS
call stack grows, and `rows*cols + 1` is proven sufficient below. -/
def revealCell : Nat → GameState → Int → Int → GameState
  | 0, s, _, _ => s
  | fuel + 1, s, row, col =>
    if row < 0 ∨ (s.rows : Int) ≤ row ∨ col < 0 ∨ (s.cols : Int) ≤ col then s
    else
      if (s.grid row.toNat col.toNat).isRevealed = true ∨
          (s.grid row.toNat col.toNat).isFlagged = true then s
      else
        let s₁ : GameState :=
          { s with
            grid := setCell s.grid row.toNat col.toNat
              { s.grid row.toNat col.toNat with isRevealed := true },
            revealedCount := s.revealedCount + 1 }
        if (s₁.grid row.toNat col.toNat).neighborMines = 0 then
          (offsets.map (fun d => (row + d.1, col + d.2))).foldl
            (fun t p => revealCell fuel t p.1 p.2) s₁
        else s₁

/-- The nested `for dr / for dc` recursion of `revealCell`, threading the
state through the eight recursive calls in order. -/
def revealFold (fuel : Nat) (s : GameState) (ps : List (Int × Int)) : GameState :=
  ps.foldl (fun t p => revealCell fuel t p.1 p.2) s

/-- Top-level flood-fill entry with the proven-sufficient fuel. -/
def reveal (s : GameState) (row col : Nat) : GameState :=
  revealCell (s.rows * s.cols + 1) s (row : Int) (col : Int)

/-- `revealMine(row, col)`: mark the clicked mine revealed; `revealedCount`
is not touched. -/
def revealMine (s : GameState) (row col : Nat) : GameState :=
  { s with grid := setCell s.grid row col { s.grid row col with isRevealed := true } }

/-- `revealAllMines()`: mark every in-bounds mine revealed. -/
def revealAllMines (s : GameState) : GameState :=
  { s with
    grid := fun r c =>
      if r < s.rows ∧ c < s.cols ∧ (s.grid r c).isMine = true then
        { s.grid r c with isRevealed := true }
      else s.grid r c }

/-- `checkWin()`: all safe cells revealed. -/
def checkWin (s : GameState) : Prop :=
  s.revealedCount = s.rows * s.cols - s.mineCount

instance (s : GameState) : Decidable (checkWin s) := by
  unfold checkWin; infer_instance

/-- `endGame(won)`: set `gameOver`, stop the timer, and on a loss reveal
every mine. -/
def endGame (won : Bool) (s : GameState) : GameState :=
  let s₁ : GameState := { s with outcome := some won }
  if won then s₁ else revealAllMines s₁

/-- `handleReveal(row, col)`: guard on `gameOver`/flagged/revealed, place
mines on the first reveal, then either lose on a mine or flood-fill and
check for the win.  `rng` feeds the deferred mine placement; when the
placement loop cannot complete the JS program never returns, embedded here
as returning the state unchanged. -/
def handleReveal (rng : List (Nat × Nat)) (s : GameState) (row col : Nat) : GameState :=
  if s.gameOver = true ∨ (s.grid row col).isFlagged = true ∨
      (s.grid row col).isRevealed = true then s
  else
    match (if s.gameStarted = true then some s else placeMines rng s row col) with
    | none => s
    | some s₁ =>
      if (s₁.grid row col).isMine = true then
        endGame false (revealMine s₁ row col)
      else
        if checkWin (reveal s₁ row col) then endGame true (reveal s₁ row col)
        else reveal s₁ row col

/-- `handleFlag(row, col)`: toggle the flag of an unrevealed cell while the
game is live, adjusting `flagCount`. -/
def handleFlag (s : GameState) (row col : Nat) : GameState :=
  if s.gameOver = true ∨ (s.grid row col).isRevealed = true then s
  else
    { s with
      grid := setCell s.grid row col
        { s.grid row col with isFlagged := !(s.grid row col).isFlagged },
      flagCount := if !(s.grid row col).isFlagged then s.flagCount + 1
        else s.flagCount - 1 }

/-- `handleChord(row, col)`: on a revealed numbered cell, count adjacent
flags; when the count matches `neighborMines`, run `handleReveal` over every
neighbor that is (still) unflagged and unrevealed, in neighbor order. -/
def handleChord (s : GameState) (row col : Nat) : GameState :=
  if (s.grid row col).isRevealed = false ∨ (s.grid row col).neighborMines = 0 then s
  else
    if (getNeighbors s.rows s.cols row col).countP (fun p => (s.grid p.1 p.2).isFlagged) =
        (s.grid row col).neighborMines then
      (getNeighbors s.rows s.cols row col).foldl
        (fun t p =>
          if (t.grid p.1 p.2).isFlagged = false ∧ (t.grid p.1 p.2).isRevealed = false then
            handleReveal [] t p.1 p.2
          else t)
        s
    else s

/-- The `safeCells` list collected by `useHint`: in-bounds cells that are
simultaneously non-mine, unrevealed and unflagged, in row-major order. -/
def safeCells (s : GameState) : List (Nat × Nat) :=
  (List.range s.rows).flatMap (fun r =>
    (List.range s.cols).filterMap (fun c =>
      if (s.grid r c).isMine = false ∧ (s.grid r c).isRevealed = false ∧
          (s.grid r c).isFlagged = false then some (r, c) else none))

/-- The random pick `safeCells[Math.floor(Math.random() * safeCells.length)]`,
with the random draw supplied as an arbitrary index. -/
def hintPick (choice : Nat) (s : GameState) : Nat × Nat :=
  (safeCells s).getD (choice % (safeCells s).length) (0, 0)

/-- `useHint()`: guard on hints remaining / game over / not started; when a
safe cell exists, decrement `hints` and reveal the picked cell. -/
def useHint (choice : Nat) (s : GameState) : GameState :=
  if s.hints = 0 ∨ s.gameOver = true ∨ s.gameStarted = false then s
  else if (safeCells s).length ≠ 0 then
    handleReveal [] { s with hints := s.hints - 1 } (hintPick choice s).1
      (hintPick choice s).2
  else s

/-- One tick of the `startTimer` interval: count down in time-attack mode
(forcing a loss at zero), count up otherwise.  `endGame` clears the
interval, so ticks only occur while the game is live and started. -/
def tick (s : GameState) : GameState :=
  if s.gameStarted = false ∨ s.gameOver = true then s
  else if s.isTimeAttack then
    if s.timer - 1 ≤ 0 then endGame false { s with timer := s.timer - 1 }
    else { s with timer := s.timer - 1 }
  else { s with timer := s.timer + 1 }

/-- The state built by `initGame` + `createGrid` for a difficulty giving
`rows × cols` with `mines` mines. -/
def initState (rows cols mines : Nat) (ta : Bool) (limit : Int) : GameState :=
  { rows := rows
    cols := cols
    mineCount := mines
    grid := fun _ _ => newCell
    flagCount := 0
    revealedCount := 0
    outcome := none
    gameStarted := false
    hints := 3
    isTimeAttack := ta
    timer := if ta then limit else 0 }

/-- A player/timer action, with its random inputs made explicit. -/
inductive GAction where
  | reveal (rng : List (Nat × Nat)) (row col : Nat)
  | flag (row col : Nat)
  | chord (row col : Nat)
  | hint (choice : Nat)
  | tick
deriving Repr

/-- Dispatch one action through the corresponding handler; the chord entry
points (`handleMouseDown` / `handleAuxClick`) guard on `gameOver` before
calling `handleChord`. -/
def step (s : GameState) : GAction → GameState
  | .reveal rng row col => handleReveal rng s row col
  | .flag row col => handleFlag s row col
  | .chord row col => if s.gameOver = true then s else handleChord s row col
  | .hint choice => useHint choice s
  | .tick => tick s

/-- Run a sequence of actions. -/
def run (s : GameState) (as : List GAction) : GameState := as.foldl step s

/-- A difficulty/slider configuration the spec admits
(`0 < mineCount < rows*cols`, nonempty grid). -/
def Valid (rows cols mines : Nat) : Prop :=
  0 < rows ∧ 0 < cols ∧ 0 < mines ∧ mines < rows * cols

/-- States reachable from a freshly initialised game by player and timer
actions. -/
def Reachable (s : GameState) : Prop :=
  ∃ rows cols mines ta limit acts,
    Valid rows cols mines ∧ s = run (initState rows cols mines ta limit) acts

/-! ### Counting and specification-side definitions -/

/-- All in-bounds coordinates. -/
def gridFinset (s : GameState) : Finset (Nat × Nat) :=
  Finset.range s.rows ×ˢ Finset.range s.cols

/-- Number of in-bounds mine cells. -/
def mineCard (s : GameState) : Nat :=
  ((gridFinset s).filter (fun p => (s.grid p.1 p.2).isMine = true)).card

/-- Number of in-bounds revealed non-mine cells. -/
def revealedSafeCard (s : GameState) : Nat :=
  ((gridFinset s).filter
    (fun p => (s.grid p.1 p.2).isMine = false ∧ (s.grid p.1 p.2).isRevealed = true)).card

/-- Number of in-bounds unrevealed cells (the flood-fill termination
measure). -/
def unrevealedCard (s : GameState) : Nat :=
  ((gridFinset s).filter (fun p => (s.grid p.1 p.2).isRevealed = false)).card

/-- Grid adjacency: distinct cells whose coordinates differ by at most one
in each axis (Chebyshev distance 1). -/
def chebAdj (p q : Nat × Nat) : Prop :=
  p ≠ q ∧ ((p.1 : Int) - (q.1 : Int)).natAbs ≤ 1 ∧ ((p.2 : Int) - (q.2 : Int)).natAbs ≤ 1

instance (p q : Nat × Nat) : Decidable (chebAdj p q) := by
  unfold chebAdj; infer_instance

/-- Specification-side adjacent-mine count: the number of in-bounds
grid-adjacent cells of `(r, c)` that carry a mine. -/
def specAdjMineCount (rows cols : Nat) (g : Nat → Nat → Cell) (r c : Nat) : Nat :=
  ((Finset.range rows ×ˢ Finset.range cols).filter
    (fun q => chebAdj (r, c) q ∧ (g q.1 q.2).isMine = true)).card

/-- Every in-bounds non-mine cell's `neighborMines` field is the exact
adjacent mine count. -/
def NumbersCorrect (s : GameState) : Prop :=
  ∀ p ∈ gridFinset s, (s.grid p.1 p.2).isMine = false →
    (s.grid p.1 p.2).neighborMines = specAdjMineCount s.rows s.cols s.grid p.1 p.2

/-- The guard under which `revealCell` actually reveals `(row, col)`:
in bounds, not yet revealed, not flagged. -/
def cellOk (s : GameState) (row col : Int) : Prop :=
  0 ≤ row ∧ row < (s.rows : Int) ∧ 0 ≤ col ∧ col < (s.cols : Int) ∧
  (s.grid row.toNat col.toNat).isRevealed = false ∧
  (s.grid row.toNat col.toNat).isFlagged = false

instance (s : GameState) (row col : Int) : Decidable (cellOk s row col) := by
  unfold cellOk; infer_instance

/-- The cells the recursion of `revealCell`, started at `(row, col)` on
state `s`, can visit: chains of neighbor steps through revealable cells
whose every non-final cell has a zero neighbor count. -/
inductive Reach (s : GameState) : Int × Int → Nat × Nat → Prop
  | base {row col : Int} : cellOk s row col → Reach s (row, col) (row.toNat, col.toNat)
  | step {row col : Int} {d : Int × Int} {x : Nat × Nat} :
      cellOk s row col → (s.grid row.toNat col.toNat).neighborMines = 0 →
      d ∈ offsets → Reach s (row + d.1, col + d.2) x → Reach s (row, col) x

/-- A zero-count cell, in the spec's sense (non-mine with no adjacent
mines recorded). -/
def zeroCellAt (s : GameState) (p : Nat × Nat) : Prop :=
  p.1 < s.rows ∧ p.2 < s.cols ∧ (s.grid p.1 p.2).isMine = false ∧
  (s.grid p.1 p.2).neighborMines = 0

/-- Spec-side connectivity: the connected region of zero-count cells
containing `p₀` (flags and previously revealed cells ignored, as in the
claim's wording). -/
inductive ZeroConn (s : GameState) (p₀ : Nat × Nat) : Nat × Nat → Prop
  | refl : zeroCellAt s p₀ → ZeroConn s p₀ p₀
  | step {p q : Nat × Nat} :
      ZeroConn s p₀ p → zeroCellAt s q → chebAdj p q → ZeroConn s p₀ q

/-- The region the claim asserts a flood fill from `p₀` reveals: the
maximal connected zero-count region through `p₀` plus its immediate
in-bounds bordering cells. -/
def specRegion (s : GameState) (p₀ q : Nat × Nat) : Prop :=
  ZeroConn s p₀ q ∨
    (q.1 < s.rows ∧ q.2 < s.cols ∧ ∃ p, ZeroConn s p₀ p ∧ chebAdj p q)

/-- The global state invariant maintained by every action (formalising
"every reachable game state"). -/
def Inv (s : GameState) : Prop :=
  (0 < s.rows ∧ 0 < s.cols ∧ 0 < s.mineCount ∧ s.mineCount < s.rows * s.cols) ∧
  (s.gameStarted = false →
    s.revealedCount = 0 ∧ ∀ p ∈ gridFinset s, (s.grid p.1 p.2).isMine = false ∧
      (s.grid p.1 p.2).isRevealed = false ∧ (s.grid p.1 p.2).neighborMines = 0) ∧
  (s.gameStarted = true → NumbersCorrect s ∧ mineCard s = s.mineCount) ∧
  s.revealedCount = revealedSafeCard s ∧
  (∀ p ∈ gridFinset s, (s.grid p.1 p.2).isRevealed = true →
    (s.grid p.1 p.2).isFlagged = true →
    (s.grid p.1 p.2).isMine = true ∧ s.outcome = some false) ∧
  (s.outcome = none → s.revealedCount < s.rows * s.cols - s.mineCount)

instance (s : GameState) : Decidable (Inv s) := by
  unfold Inv NumbersCorrect; infer_instance

/-! ### High-score table (`HighScoreManager.addScore`) -/

/-- One persisted high-score entry. -/
structure ScoreEntry where
  name : String
  initials : String
  time : Int
  date : String
deriving DecidableEq, Repr

/-- The comparator `(a, b) => a.time - b.time` as a stable sort order. -/
def scoreLe (a b : ScoreEntry) : Bool := a.time ≤ b.time

/-- `addScore`: push the entry, sort the bucket ascending by time (JS
`Array.prototype.sort` is stable), keep the first ten. -/
def addScore (bucket : List ScoreEntry) (e : ScoreEntry) : List ScoreEntry :=
  ((bucket ++ [e]).mergeSort scoreLe).take 10

/-! ### Basic lemmas about grid updates -/

theorem setCell_self (g : Nat → Nat → Cell) (r c : Nat) (cell : Cell) :
    setCell g r c cell r c = cell := by
  simp [setCell]

theorem setCell_of_ne (g : Nat → Nat → Cell) (r c : Nat) (cell : Cell) (r' c' : Nat)
    (h : ¬(r' = r ∧ c' = c)) : setCell g r c cell r' c' = g r' c' := by
  simp only [setCell, if_neg h]

/-- The state produced by the two mutation lines of `revealCell` once the
guards pass. -/
def markRevealed (s : GameState) (r c : Nat) : GameState :=
  { s with
    grid := setCell s.grid r c { s.grid r c with isRevealed := true },
    revealedCount := s.revealedCount + 1 }

theorem markRevealed_grid (s : GameState) (r c r' c' : Nat) :
    (markRevealed s r c).grid r' c' =
      if r' = r ∧ c' = c then { s.grid r c with isRevealed := true } else s.grid r' c' := by
  simp [markRevealed, setCell]

/-- Unfolding: zero fuel is the identity. -/
theorem revealCell_zero (s : GameState) (row col : Int) : revealCell 0 s row col = s := by
  rw [revealCell]

theorem revealFold_nil (fuel : Nat) (s : GameState) : revealFold fuel s [] = s := by
  rw [revealFold]; rfl

theorem revealFold_cons (fuel : Nat) (s : GameState) (p : Int × Int)
    (rest : List (Int × Int)) :
    revealFold fuel s (p :: rest) = revealFold fuel (revealCell fuel s p.1 p.2) rest := by
  rw [revealFold]; rfl

/-- Unfolding: out-of-bounds coordinates are ignored. -/
theorem revealCell_oob (fuel : Nat) (s : GameState) (row col : Int)
    (h : row < 0 ∨ (s.rows : Int) ≤ row ∨ col < 0 ∨ (s.cols : Int) ≤ col) :
    revealCell (fuel + 1) s row col = s := by
  rw [revealCell]; simp only [if_pos h]

/-- Unfolding: revealed or flagged cells are skipped. -/
theorem revealCell_skip (fuel : Nat) (s : GameState) (row col : Int)
    (h : ¬(row < 0 ∨ (s.rows : Int) ≤ row ∨ col < 0 ∨ (s.cols : Int) ≤ col))
    (h₂ : (s.grid row.toNat col.toNat).isRevealed = true ∨
      (s.grid row.toNat col.toNat).isFlagged = true) :
    revealCell (fuel + 1) s row col = s := by
  rw [revealCell]; simp only [if_neg h, if_pos h₂]

/-- Unfolding: a revealable cell is marked and, when its count is zero, the
eight neighbors are processed. -/
theorem revealCell_go (fuel : Nat) (s : GameState) (row col : Int)
    (h : ¬(row < 0 ∨ (s.rows : Int) ≤ row ∨ col < 0 ∨ (s.cols : Int) ≤ col))
    (h₂ : ¬((s.grid row.toNat col.toNat).isRevealed = true ∨
      (s.grid row.toNat col.toNat).isFlagged = true)) :
    revealCell (fuel + 1) s row col =
      (if (s.grid row.toNat col.toNat).neighborMines = 0 then
        revealFold fuel (markRevealed s row.toNat col.toNat)
          (offsets.map (fun d => (row + d.1, col + d.2)))
      else markRevealed s row.toNat col.toNat) := by
  rw [revealCell]
  simp only [if_neg h, if_neg h₂, setCell_self]
  rfl

/-- The footprint of a flood-fill call: every field except the grid's
`isRevealed` bits and `revealedCount` is unchanged, and revealing is
monotone. -/
def RevealExtends (s t : GameState) : Prop :=
  t.rows = s.rows ∧ t.cols = s.cols ∧ t.mineCount = s.mineCount ∧
  t.flagCount = s.flagCount ∧ t.outcome = s.outcome ∧ t.gameStarted = s.gameStarted ∧
  t.hints = s.hints ∧ t.isTimeAttack = s.isTimeAttack ∧ t.timer = s.timer ∧
  ∀ r c, (t.grid r c).isMine = (s.grid r c).isMine ∧
    (t.grid r c).isFlagged = (s.grid r c).isFlagged ∧
    (t.grid r c).neighborMines = (s.grid r c).neighborMines ∧
    ((s.grid r c).isRevealed = true → (t.grid r c).isRevealed = true)

theorem revealExtends_rfl (s : GameState) : RevealExtends s s := by
  refine ⟨rfl, rfl, rfl, rfl, rfl, rfl, rfl, rfl, rfl, fun r c => ⟨rfl, rfl, rfl, fun h => h⟩⟩

theorem revealExtends_trans {s t u : GameState} (h₁ : RevealExtends s t)
    (h₂ : RevealExtends t u) : RevealExtends s u := by
  obtain ⟨a1, a2, a3, a4, a5, a6, a7, a8, a9, hg⟩ := h₁
  obtain ⟨b1, b2, b3, b4, b5, b6, b7, b8, b9, hg'⟩ := h₂
  refine ⟨b1.trans a1, b2.trans a2, b3.trans a3, b4.trans a4, b5.trans a5, b6.trans a6,
    b7.trans a7, b8.trans a8, b9.trans a9, fun r c => ?_⟩
  obtain ⟨c1, c2, c3, c4⟩ := hg r c
  obtain ⟨d1, d2, d3, d4⟩ := hg' r c
  exact ⟨d1.trans c1, d2.trans c2, d3.trans c3, fun h => d4 (c4 h)⟩

theorem markRevealed_extends (s : GameState) (r c : Nat) :
    RevealExtends s (markRevealed s r c) := by
  refine ⟨rfl, rfl, rfl, rfl, rfl, rfl, rfl, rfl, rfl, fun r' c' => ?_⟩
  rw [markRevealed_grid]
  by_cases h : r' = r ∧ c' = c
  · obtain ⟨rfl, rfl⟩ := h
    simp
  · simp [if_neg h]

theorem revealCell_extends_aux :
    ∀ fuel : Nat, (∀ s row col, RevealExtends s (revealCell fuel s row col)) ∧
      (∀ ps s, RevealExtends s (revealFold fuel s ps)) := by
  intro fuel
  induction fuel with
  | zero =>
    constructor
    · intro s row col; rw [revealCell_zero]; exact revealExtends_rfl s
    · intro ps
      induction ps with
      | nil => intro s; rw [revealFold_nil]; exact revealExtends_rfl s
      | cons p rest ih =>
        intro s
        rw [revealFold_cons, revealCell_zero]
        exact ih s
  | succ fuel ih =>
    have hc : ∀ s row col, RevealExtends s (revealCell (fuel + 1) s row col) := by
      intro s row col
      by_cases h : row < 0 ∨ (s.rows : Int) ≤ row ∨ col < 0 ∨ (s.cols : Int) ≤ col
      · rw [revealCell_oob fuel s row col h]; exact revealExtends_rfl s
      · by_cases h₂ : (s.grid row.toNat col.toNat).isRevealed = true ∨
          (s.grid row.toNat col.toNat).isFlagged = true
        · rw [revealCell_skip fuel s row col h h₂]; exact revealExtends_rfl s
        · rw [revealCell_go fuel s row col h h₂]
          split
          · exact revealExtends_trans (markRevealed_extends s _ _) (ih.2 _ _)
          · exact markRevealed_extends s _ _
    refine ⟨hc, ?_⟩
    intro ps
    induction ps with
    | nil => intro s; rw [revealFold_nil]; exact revealExtends_rfl s
    | cons p rest ihr =>
      intro s
      rw [revealFold_cons]
      exact revealExtends_trans (hc s p.1 p.2) (ihr _)

theorem revealCell_extends (fuel : Nat) (s : GameState) (row col : Int) :
    RevealExtends s (revealCell fuel s row col) :=
  (revealCell_extends_aux fuel).1 s row col

theorem revealFold_extends (fuel : Nat) (s : GameState) (ps : List (Int × Int)) :
    RevealExtends s (revealFold fuel s ps) :=
  (revealCell_extends_aux fuel).2 ps s

/-! ### Counting lemmas -/

/-- Number of in-bounds revealed cells (mines included). -/
def revealedAllCard (s : GameState) : Nat :=
  ((gridFinset s).filter (fun p => (s.grid p.1 p.2).isRevealed = true)).card

/-- Number of cells revealed by going from `s` to `t`. -/
def newlyRevealedCard (s t : GameState) : Nat :=
  ((gridFinset s).filter
    (fun p => (s.grid p.1 p.2).isRevealed = false ∧ (t.grid p.1 p.2).isRevealed = true)).card

theorem card_filter_add_card_filter {α : Type} [DecidableEq α] (A : Finset α) (p q : α → Prop)
    [DecidablePred p] [DecidablePred q] (h : ∀ x ∈ A, p x → q x) :
    (A.filter q).card = (A.filter p).card + (A.filter fun x => q x ∧ ¬p x).card := by
  have hunion : A.filter p ∪ A.filter (fun x => q x ∧ ¬p x) = A.filter q := by
    ext x
    simp only [Finset.mem_union, Finset.mem_filter]
    constructor
    · rintro (⟨hx, hp⟩ | ⟨hx, hq, _⟩)
      · exact ⟨hx, h x hx hp⟩
      · exact ⟨hx, hq⟩
    · rintro ⟨hx, hq⟩
      by_cases hp : p x
      · exact Or.inl ⟨hx, hp⟩
      · exact Or.inr ⟨hx, hq, hp⟩
  have hdisj : Disjoint (A.filter p) (A.filter (fun x => q x ∧ ¬p x)) := by
    rw [Finset.disjoint_left]
    intro x hx hx'
    rw [Finset.mem_filter] at hx hx'
    exact hx'.2.2 hx.2
  rw [← hunion, Finset.card_union_of_disjoint hdisj]

theorem gridFinset_of_extends {s t : GameState} (h : RevealExtends s t) :
    gridFinset t = gridFinset s := by
  unfold gridFinset
  rw [h.1, h.2.1]

theorem extends_unrevealed {s t : GameState} (h : RevealExtends s t) (r c : Nat)
    (hu : (t.grid r c).isRevealed = false) : (s.grid r c).isRevealed = false := by
  have := (h.2.2.2.2.2.2.2.2.2 r c).2.2.2
  cases hrev : (s.grid r c).isRevealed with
  | false => rfl
  | true => rw [this hrev] at hu; cases hu

/-- Revealing is cumulative: the old unrevealed set splits into the still
unrevealed cells and the newly revealed ones. -/
theorem unrevealedCard_split {s t : GameState} (h : RevealExtends s t) :
    unrevealedCard s = unrevealedCard t + newlyRevealedCard s t := by
  unfold unrevealedCard newlyRevealedCard
  rw [gridFinset_of_extends h]
  have hmain := card_filter_add_card_filter (gridFinset s)
    (fun p => (t.grid p.1 p.2).isRevealed = false)
    (fun p => (s.grid p.1 p.2).isRevealed = false)
    (fun x _ hp => extends_unrevealed h x.1 x.2 hp)
  have hiff : (gridFinset s).filter
      (fun x => (s.grid x.1 x.2).isRevealed = false ∧ ¬(t.grid x.1 x.2).isRevealed = false) =
      (gridFinset s).filter
        (fun p => (s.grid p.1 p.2).isRevealed = false ∧ (t.grid p.1 p.2).isRevealed = true) := by
    refine Finset.filter_congr ?_
    intro x _
    simp only [Bool.not_eq_false]
  rw [hmain, hiff]

theorem revealedSafeCard_split {s t : GameState} (h : RevealExtends s t)
    (hnm : ∀ r c, (s.grid r c).isMine = true →
      (t.grid r c).isRevealed = (s.grid r c).isRevealed) :
    revealedSafeCard t = revealedSafeCard s + newlyRevealedCard s t := by
  unfold revealedSafeCard newlyRevealedCard
  rw [gridFinset_of_extends h]
  have hmono : ∀ x ∈ gridFinset s,
      ((s.grid x.1 x.2).isMine = false ∧ (s.grid x.1 x.2).isRevealed = true) →
      ((t.grid x.1 x.2).isMine = false ∧ (t.grid x.1 x.2).isRevealed = true) := by
    intro x _ ⟨h1, h2⟩
    exact ⟨((h.2.2.2.2.2.2.2.2.2 x.1 x.2).1).trans h1,
      (h.2.2.2.2.2.2.2.2.2 x.1 x.2).2.2.2 h2⟩
  rw [card_filter_add_card_filter (gridFinset s) _ _ hmono]
  have hiff : (gridFinset s).filter
      (fun x => ((t.grid x.1 x.2).isMine = false ∧ (t.grid x.1 x.2).isRevealed = true) ∧
        ¬((s.grid x.1 x.2).isMine = false ∧ (s.grid x.1 x.2).isRevealed = true)) =
      (gridFinset s).filter
        (fun p => (s.grid p.1 p.2).isRevealed = false ∧ (t.grid p.1 p.2).isRevealed = true) := by
    refine Finset.filter_congr ?_
    intro x _
    constructor
    · rintro ⟨⟨hm, hr⟩, hn⟩
      have hms : (s.grid x.1 x.2).isMine = false := by
        rw [← (h.2.2.2.2.2.2.2.2.2 x.1 x.2).1]; exact hm
      have hrs : (s.grid x.1 x.2).isRevealed = false := by
        by_contra hc
        rw [Bool.not_eq_false] at hc
        exact hn ⟨hms, hc⟩
      exact ⟨hrs, hr⟩
    · rintro ⟨hrs, hrt⟩
      have hms : (s.grid x.1 x.2).isMine = false := by
        by_contra hc
        rw [Bool.not_eq_false] at hc
        rw [hnm x.1 x.2 hc, hrs] at hrt
        cases hrt
      refine ⟨⟨((h.2.2.2.2.2.2.2.2.2 x.1 x.2).1).trans hms, hrt⟩, ?_⟩
      rintro ⟨-, hc⟩
      rw [hrs] at hc
      cases hc
  rw [hiff]

theorem mineCard_of_extends {s t : GameState} (h : RevealExtends s t) :
    mineCard t = mineCard s := by
  unfold mineCard
  rw [gridFinset_of_extends h]
  congr 1
  refine Finset.filter_congr (fun x _ => ?_)
  rw [(h.2.2.2.2.2.2.2.2.2 x.1 x.2).1]

theorem mem_gridFinset_of_guard (s : GameState) {row col : Int}
    (h : ¬(row < 0 ∨ (s.rows : Int) ≤ row ∨ col < 0 ∨ (s.cols : Int) ≤ col)) :
    (row.toNat, col.toNat) ∈ gridFinset s := by
  simp only [gridFinset, Finset.mem_product, Finset.mem_range]
  push_neg at h
  omega

theorem unrevealedCard_markRevealed (s : GameState) (r c : Nat)
    (hin : (r, c) ∈ gridFinset s) (hun : (s.grid r c).isRevealed = false) :
    unrevealedCard s = unrevealedCard (markRevealed s r c) + 1 := by
  unfold unrevealedCard
  have hA : gridFinset (markRevealed s r c) = gridFinset s := rfl
  rw [hA]
  have hset : (gridFinset s).filter (fun p => (s.grid p.1 p.2).isRevealed = false) =
      insert (r, c) ((gridFinset s).filter
        (fun p => ((markRevealed s r c).grid p.1 p.2).isRevealed = false)) := by
    ext x
    simp only [Finset.mem_insert, Finset.mem_filter, markRevealed_grid]
    constructor
    · rintro ⟨hx, hrev⟩
      by_cases hx2 : x.1 = r ∧ x.2 = c
      · exact Or.inl (Prod.ext hx2.1 hx2.2)
      · exact Or.inr ⟨hx, by rw [if_neg hx2]; exact hrev⟩
    · rintro (rfl | ⟨hx, hrev⟩)
      · exact ⟨hin, hun⟩
      · by_cases hx2 : x.1 = r ∧ x.2 = c
        · rw [if_pos hx2] at hrev
          cases hrev
        · rw [if_neg hx2] at hrev
          exact ⟨hx, hrev⟩
  rw [hset, Finset.card_insert_of_not_mem]
  simp [Finset.mem_filter, markRevealed_grid]

/-- The flood fill bumps `revealedCount` exactly once per grid cell it
reveals: the sum of the counter and the unrevealed-cell count is invariant. -/
theorem revealCell_count_aux :
    ∀ fuel : Nat,
      (∀ s row col, (revealCell fuel s row col).revealedCount +
        unrevealedCard (revealCell fuel s row col) = s.revealedCount + unrevealedCard s) ∧
      (∀ ps s, (revealFold fuel s ps).revealedCount +
        unrevealedCard (revealFold fuel s ps) = s.revealedCount + unrevealedCard s) := by
  intro fuel
  induction fuel with
  | zero =>
    constructor
    · intro s row col; rw [revealCell_zero]
    · intro ps
      induction ps with
      | nil => intro s; rw [revealFold_nil]
      | cons p rest ih =>
        intro s
        rw [revealFold_cons, revealCell_zero]
        exact ih s
  | succ fuel ih =>
    have hc : ∀ s row col, (revealCell (fuel + 1) s row col).revealedCount +
        unrevealedCard (revealCell (fuel + 1) s row col) =
          s.revealedCount + unrevealedCard s := by
      intro s row col
      by_cases h : row < 0 ∨ (s.rows : Int) ≤ row ∨ col < 0 ∨ (s.cols : Int) ≤ col
      · rw [revealCell_oob fuel s row col h]
      · by_cases h₂ : (s.grid row.toNat col.toNat).isRevealed = true ∨
          (s.grid row.toNat col.toNat).isFlagged = true
        · rw [revealCell_skip fuel s row col h h₂]
        · rw [revealCell_go fuel s row col h h₂]
          push_neg at h₂
          have hmark : (markRevealed s row.toNat col.toNat).revealedCount +
              unrevealedCard (markRevealed s row.toNat col.toNat) =
                s.revealedCount + unrevealedCard s := by
            have hu := unrevealedCard_markRevealed s row.toNat col.toNat
              (mem_gridFinset_of_guard s h) (by simpa using h₂.1)
            have hrc : (markRevealed s row.toNat col.toNat).revealedCount =
                s.revealedCount + 1 := rfl
            omega
          split
          · rw [ih.2 _ _]
            exact hmark
          · exact hmark
    refine ⟨hc, ?_⟩
    intro ps
    induction ps with
    | nil => intro s; rw [revealFold_nil]
    | cons p rest ihr =>
      intro s
      rw [revealFold_cons]
      rw [ihr _]
      exact hc s p.1 p.2

theorem revealCell_count (fuel : Nat) (s : GameState) (row col : Int) :
    (revealCell fuel s row col).revealedCount +
      unrevealedCard (revealCell fuel s row col) = s.revealedCount + unrevealedCard s :=
  (revealCell_count_aux fuel).1 s row col

/-- `revealedCount` grows by exactly the number of newly revealed cells. -/
theorem revealCell_count_newly (fuel : Nat) (s : GameState) (row col : Int) :
    (revealCell fuel s row col).revealedCount =
      s.revealedCount + newlyRevealedCard s (revealCell fuel s row col) := by
  have h₁ := revealCell_count fuel s row col
  have h₂ := unrevealedCard_split (revealCell_extends fuel s row col)
  omega

/-! ### Soundness: flood fill only reveals `Reach`-able cells -/

theorem extends_grid_facts {s t : GameState} (h : RevealExtends s t) (r c : Nat) :
    (t.grid r c).isMine = (s.grid r c).isMine ∧
    (t.grid r c).isFlagged = (s.grid r c).isFlagged ∧
    (t.grid r c).neighborMines = (s.grid r c).neighborMines ∧
    ((s.grid r c).isRevealed = true → (t.grid r c).isRevealed = true) :=
  h.2.2.2.2.2.2.2.2.2 r c

theorem cellOk_of_extends {s t : GameState} (h : RevealExtends s t) {row col : Int}
    (ho : cellOk t row col) : cellOk s row col := by
  obtain ⟨h1, h2, h3, h4, h5, h6⟩ := ho
  rw [h.1] at h2
  rw [h.2.1] at h4
  refine ⟨h1, h2, h3, h4, ?_, ?_⟩
  · exact extends_unrevealed h _ _ h5
  · rw [← (extends_grid_facts h row.toNat col.toNat).2.1]
    exact h6

theorem Reach.weaken {s t : GameState} (h : RevealExtends s t) :
    ∀ {p : Int × Int} {x : Nat × Nat}, Reach t p x → Reach s p x := by
  intro p x hr
  induction hr with
  | base ho => exact Reach.base (cellOk_of_extends h ho)
  | step ho hnm hd _ ih =>
    refine Reach.step (cellOk_of_extends h ho) ?_ hd ih
    rw [← (extends_grid_facts h _ _).2.2.1]
    exact hnm

theorem Reach.headOk {s : GameState} {row col : Int} {x : Nat × Nat}
    (h : Reach s (row, col) x) : cellOk s row col := by
  cases h with
  | base ho => exact ho
  | step ho _ _ _ => exact ho

theorem Reach.tailOk {s : GameState} {p : Int × Int} {x : Nat × Nat} (h : Reach s p x) :
    x.1 < s.rows ∧ x.2 < s.cols ∧ (s.grid x.1 x.2).isRevealed = false ∧
      (s.grid x.1 x.2).isFlagged = false := by
  induction h with
  | base ho =>
    obtain ⟨h1, h2, h3, h4, h5, h6⟩ := ho
    exact ⟨by omega, by omega, h5, h6⟩
  | step _ _ _ _ ih => exact ih

/-- Soundness of the flood fill: every cell it newly reveals is reachable
from the start through revealable zero-count cells. -/
theorem revealCell_sound_aux :
    ∀ fuel : Nat,
      (∀ s row col (x : Nat × Nat), (s.grid x.1 x.2).isRevealed = false →
        ((revealCell fuel s row col).grid x.1 x.2).isRevealed = true →
        Reach s (row, col) x) ∧
      (∀ (ps : List (Int × Int)) s (x : Nat × Nat), (s.grid x.1 x.2).isRevealed = false →
        ((revealFold fuel s ps).grid x.1 x.2).isRevealed = true →
        ∃ p ∈ ps, Reach s p x) := by
  intro fuel
  induction fuel with
  | zero =>
    constructor
    · intro s row col x hun hrev
      rw [revealCell_zero] at hrev
      rw [hun] at hrev
      cases hrev
    · intro ps
      induction ps with
      | nil =>
        intro s x hun hrev
        rw [revealFold_nil] at hrev
        rw [hun] at hrev
        cases hrev
      | cons p rest ih =>
        intro s x hun hrev
        rw [revealFold_cons, revealCell_zero] at hrev
        obtain ⟨q, hq, hr⟩ := ih s x hun hrev
        exact ⟨q, List.mem_cons_of_mem p hq, hr⟩
  | succ fuel ih =>
    have hc : ∀ s row col (x : Nat × Nat), (s.grid x.1 x.2).isRevealed = false →
        ((revealCell (fuel + 1) s row col).grid x.1 x.2).isRevealed = true →
        Reach s (row, col) x := by
      intro s row col x hun hrev
      by_cases h : row < 0 ∨ (s.rows : Int) ≤ row ∨ col < 0 ∨ (s.cols : Int) ≤ col
      · rw [revealCell_oob fuel s row col h, hun] at hrev
        cases hrev
      · by_cases h₂ : (s.grid row.toNat col.toNat).isRevealed = true ∨
          (s.grid row.toNat col.toNat).isFlagged = true
        · rw [revealCell_skip fuel s row col h h₂, hun] at hrev
          cases hrev
        · rw [revealCell_go fuel s row col h h₂] at hrev
          push_neg at h
          push_neg at h₂
          have hok : cellOk s row col :=
            ⟨by omega, by omega, by omega, by omega,
              by simpa using h₂.1, by simpa using h₂.2⟩
          by_cases hx : x = (row.toNat, col.toNat)
          · subst hx
            exact Reach.base hok
          · have hun₁ : ((markRevealed s row.toNat col.toNat).grid x.1 x.2).isRevealed
                = false := by
              rw [markRevealed_grid]
              rw [if_neg, hun]
              intro hcon
              exact hx (Prod.ext hcon.1 hcon.2)
            rcases hsplit : (s.grid row.toNat col.toNat).neighborMines with _ | n
            · rw [if_pos hsplit] at hrev
              obtain ⟨q, hq, hr⟩ := ih.2 _ _ x hun₁ hrev
              obtain ⟨d, hd, hde⟩ := List.mem_map.1 hq
              have hr' : Reach s q x :=
                hr.weaken (markRevealed_extends s row.toNat col.toNat)
              subst hde
              exact Reach.step hok hsplit hd hr'
            · rw [if_neg (by omega)] at hrev
              rw [hun₁] at hrev
              cases hrev
    refine ⟨hc, ?_⟩
    intro ps
    induction ps with
    | nil =>
      intro s x hun hrev
      rw [revealFold_nil, hun] at hrev
      cases hrev
    | cons p rest ihr =>
      intro s x hun hrev
      rw [revealFold_cons] at hrev
      by_cases hmid : ((revealCell (fuel + 1) s p.1 p.2).grid x.1 x.2).isRevealed = true
      · exact ⟨p, List.mem_cons_self p rest, hc s p.1 p.2 x hun hmid⟩
      · have hmid' : ((revealCell (fuel + 1) s p.1 p.2).grid x.1 x.2).isRevealed = false := by
          cases hb : ((revealCell (fuel + 1) s p.1 p.2).grid x.1 x.2).isRevealed with
          | false => rfl
          | true => exact absurd hb hmid
        obtain ⟨q, hq, hr⟩ := ihr _ x hmid' hrev
        exact ⟨q, List.mem_cons_of_mem p hq,
          hr.weaken (revealCell_extends (fuel + 1) s p.1 p.2)⟩

theorem revealCell_sound (fuel : Nat) (s : GameState) (row col : Int) (x : Nat × Nat)
    (hun : (s.grid x.1 x.2).isRevealed = false)
    (hrev : ((revealCell fuel s row col).grid x.1 x.2).isRevealed = true) :
    Reach s (row, col) x :=
  (revealCell_sound_aux fuel).1 s row col x hun hrev

/-! ### Completeness: flood fill reveals every `Reach`-able cell -/

theorem unrevealedCard_mono {s t : GameState} (h : RevealExtends s t) :
    unrevealedCard t ≤ unrevealedCard s := by
  have := unrevealedCard_split h
  omega

theorem unrevealedCard_pos (s : GameState) (r c : Nat) (hin : (r, c) ∈ gridFinset s)
    (hun : (s.grid r c).isRevealed = false) : 1 ≤ unrevealedCard s := by
  refine Finset.card_pos.2 ⟨(r, c), ?_⟩
  rw [Finset.mem_filter]
  exact ⟨hin, hun⟩

/-- If a cell is revealable (in bounds and unflagged), one `revealCell` call
with positive fuel leaves it revealed. -/
theorem revealCell_reveals_start (fuel : Nat) (s : GameState) (row col : Int)
    (h : ¬(row < 0 ∨ (s.rows : Int) ≤ row ∨ col < 0 ∨ (s.cols : Int) ≤ col))
    (hfl : (s.grid row.toNat col.toNat).isFlagged = false) :
    ((revealCell (fuel + 1) s row col).grid row.toNat col.toNat).isRevealed = true := by
  by_cases h₂ : (s.grid row.toNat col.toNat).isRevealed = true
  · exact (extends_grid_facts (revealCell_extends (fuel + 1) s row col) _ _).2.2.2 h₂
  · have h₂' : ¬((s.grid row.toNat col.toNat).isRevealed = true ∨
        (s.grid row.toNat col.toNat).isFlagged = true) := by
      rw [hfl]
      simpa using h₂
    rw [revealCell_go fuel s row col h h₂']
    have hmark : ((markRevealed s row.toNat col.toNat).grid
        row.toNat col.toNat).isRevealed = true := by
      rw [markRevealed_grid, if_pos ⟨rfl, rfl⟩]
    split
    · exact (extends_grid_facts
        (revealFold_extends fuel (markRevealed s row.toNat col.toNat) _) _ _).2.2.2 hmark
    · exact hmark

/-- The closure property the flood fill establishes: every zero-count cell
it newly revealed has had all its revealable neighbors revealed. -/
def Expanded (s t : GameState) : Prop :=
  ∀ row col : Int, cellOk s row col →
    (t.grid row.toNat col.toNat).isRevealed = true →
    (s.grid row.toNat col.toNat).neighborMines = 0 →
    ∀ d ∈ offsets, inb s.rows s.cols (row + d.1) (col + d.2) →
      (s.grid (row + d.1).toNat (col + d.2).toNat).isFlagged = false →
      (t.grid (row + d.1).toNat (col + d.2).toNat).isRevealed = true

theorem expanded_rfl (s : GameState) : Expanded s s := by
  intro row col hok hrev _ d _ _ _
  rw [hok.2.2.2.2.1] at hrev
  cases hrev

theorem Expanded.comp {s t u : GameState} (hst : RevealExtends s t)
    (htu : RevealExtends t u) (h₁ : Expanded s t) (h₂ : Expanded t u) : Expanded s u := by
  intro row col hok hrevu hnm d hd hinb hfl
  by_cases hrevt : (t.grid row.toNat col.toNat).isRevealed = true
  · exact (extends_grid_facts htu _ _).2.2.2 (h₁ row col hok hrevt hnm d hd hinb hfl)
  · have hok' : cellOk t row col := by
      obtain ⟨a1, a2, a3, a4, a5, a6⟩ := hok
      refine ⟨a1, by rw [hst.1]; exact a2, a3, by rw [hst.2.1]; exact a4, ?_, ?_⟩
      · cases hb : (t.grid row.toNat col.toNat).isRevealed with
        | false => rfl
        | true => exact absurd hb hrevt
      · rw [(extends_grid_facts hst _ _).2.1]
        exact a6
    have hnm' : (t.grid row.toNat col.toNat).neighborMines = 0 := by
      rw [(extends_grid_facts hst _ _).2.2.1]
      exact hnm
    have hinb' : inb t.rows t.cols (row + d.1) (col + d.2) := by
      unfold inb at hinb ⊢
      rw [hst.1, hst.2.1]
      exact hinb
    have hfl' : (t.grid (row + d.1).toNat (col + d.2).toNat).isFlagged = false := by
      rw [(extends_grid_facts hst _ _).2.1]
      exact hfl
    exact h₂ row col hok' hrevu hnm' d hd hinb' hfl'

/-- Every in-bounds unflagged coordinate in the worklist ends up revealed. -/
theorem revealFold_reveals_mem :
    ∀ (ps : List (Int × Int)) (fuel : Nat) (t : GameState) (r c : Int), (r, c) ∈ ps →
      ¬(r < 0 ∨ (t.rows : Int) ≤ r ∨ c < 0 ∨ (t.cols : Int) ≤ c) →
      (t.grid r.toNat c.toNat).isFlagged = false →
      ((revealFold (fuel + 1) t ps).grid r.toNat c.toNat).isRevealed = true := by
  intro ps
  induction ps with
  | nil => intro fuel t r c hmem; cases hmem
  | cons p rest ih =>
    intro fuel t r c hmem hinb hfl
    rw [revealFold_cons]
    rcases List.mem_cons.1 hmem with heq | hmem'
    · subst heq
      have hstart := revealCell_reveals_start fuel t r c hinb hfl
      exact (extends_grid_facts
        (revealFold_extends (fuel + 1) (revealCell (fuel + 1) t r c) rest) _ _).2.2.2 hstart
    · have hext := revealCell_extends (fuel + 1) t p.1 p.2
      refine ih fuel (revealCell (fuel + 1) t p.1 p.2) r c hmem' ?_ ?_
      · rw [hext.1, hext.2.1]
        exact hinb
      · rw [(extends_grid_facts hext _ _).2.1]
        exact hfl

/-- With sufficient fuel the flood fill fully expands every zero-count cell
it reveals. -/
theorem revealCell_expanded_aux :
    ∀ fuel : Nat,
      (∀ s row col, unrevealedCard s < fuel → Expanded s (revealCell fuel s row col)) ∧
      (∀ (ps : List (Int × Int)) s, unrevealedCard s < fuel →
        Expanded s (revealFold fuel s ps)) := by
  intro fuel
  induction fuel with
  | zero =>
    constructor
    · intro s row col hlt; omega
    · intro ps s hlt; omega
  | succ fuel ih =>
    have hc : ∀ s row col, unrevealedCard s < fuel + 1 →
        Expanded s (revealCell (fuel + 1) s row col) := by
      intro s row col hfuel
      by_cases h : row < 0 ∨ (s.rows : Int) ≤ row ∨ col < 0 ∨ (s.cols : Int) ≤ col
      · rw [revealCell_oob fuel s row col h]; exact expanded_rfl s
      · by_cases h₂ : (s.grid row.toNat col.toNat).isRevealed = true ∨
          (s.grid row.toNat col.toNat).isFlagged = true
        · rw [revealCell_skip fuel s row col h h₂]; exact expanded_rfl s
        · rw [revealCell_go fuel s row col h h₂]
          push_neg at h₂
          have hun : (s.grid row.toNat col.toNat).isRevealed = false := by simpa using h₂.1
          have hin := mem_gridFinset_of_guard s h
          have hcount := unrevealedCard_markRevealed s row.toNat col.toNat hin hun
          have hpos := unrevealedCard_pos s row.toNat col.toNat hin hun
          have hlt₁ : unrevealedCard (markRevealed s row.toNat col.toNat) < fuel := by omega
          split
          next hnm0 =>
            intro row' col' hok' hrevt hnm' d hd hinb hfl
            have hext1 := markRevealed_extends s row.toNat col.toNat
            have hf' : ∃ f', fuel = f' + 1 := ⟨fuel - 1, by omega⟩
            obtain ⟨f', rfl⟩ := hf'
            by_cases hx : row'.toNat = row.toNat ∧ col'.toNat = col.toNat
            · have hrr : row' = row := by
                have := hok'.1
                push_neg at h
                omega
              have hcc : col' = col := by
                have := hok'.2.2.1
                push_neg at h
                omega
              refine revealFold_reveals_mem _ f' (markRevealed s row.toNat col.toNat)
                (row' + d.1) (col' + d.2) ?_ ?_ ?_
              · exact List.mem_map.2 ⟨d, hd, by rw [hrr, hcc]⟩
              · have hrows : (markRevealed s row.toNat col.toNat).rows = s.rows := rfl
                have hcols : (markRevealed s row.toNat col.toNat).cols = s.cols := rfl
                rw [hrows, hcols]
                unfold inb at hinb
                omega
              · rw [(extends_grid_facts hext1 _ _).2.1]
                exact hfl
            · have hok₁ : cellOk (markRevealed s row.toNat col.toNat) row' col' := by
                obtain ⟨a1, a2, a3, a4, a5, a6⟩ := hok'
                refine ⟨a1, a2, a3, a4, ?_, ?_⟩
                · rw [markRevealed_grid, if_neg hx]
                  exact a5
                · rw [markRevealed_grid, if_neg hx]
                  exact a6
              have hnm₁ : ((markRevealed s row.toNat col.toNat).grid
                  row'.toNat col'.toNat).neighborMines = 0 := by
                rw [(extends_grid_facts hext1 _ _).2.2.1]
                exact hnm'
              have hinb₁ : inb (markRevealed s row.toNat col.toNat).rows
                  (markRevealed s row.toNat col.toNat).cols (row' + d.1) (col' + d.2) := hinb
              have hfl₁ : ((markRevealed s row.toNat col.toNat).grid
                  (row' + d.1).toNat (col' + d.2).toNat).isFlagged = false := by
                rw [(extends_grid_facts hext1 _ _).2.1]
                exact hfl
              exact ih.2 _ _ hlt₁ row' col' hok₁ hrevt hnm₁ d hd hinb₁ hfl₁
          next hnm0 =>
            intro row' col' hok' hrevt hnm' d hd hinb hfl
            exfalso
            rw [markRevealed_grid] at hrevt
            by_cases hx : row'.toNat = row.toNat ∧ col'.toNat = col.toNat
            · have hrr : row' = row := by
                have := hok'.1
                push_neg at h
                omega
              have hcc : col' = col := by
                have := hok'.2.2.1
                push_neg at h
                omega
              rw [hrr, hcc] at hnm'
              exact hnm0 hnm'
            · rw [if_neg hx, hok'.2.2.2.2.1] at hrevt
              cases hrevt
    refine ⟨hc, ?_⟩
    intro ps
    induction ps with
    | nil =>
      intro s hlt
      rw [revealFold_nil]
      exact expanded_rfl s
    | cons p rest ihr =>
      intro s hlt
      rw [revealFold_cons]
      have hext := revealCell_extends (fuel + 1) s p.1 p.2
      have h₁ := hc s p.1 p.2 hlt
      have hlt' : unrevealedCard (revealCell (fuel + 1) s p.1 p.2) < fuel + 1 :=
        lt_of_le_of_lt (unrevealedCard_mono hext) hlt
      exact Expanded.comp hext
        (revealFold_extends (fuel + 1) (revealCell (fuel + 1) s p.1 p.2) rest)
        h₁ (ihr _ hlt')

/-- Walk a `Reach` derivation through an `Expanded` final state. -/
theorem reach_revealed_of_expanded {s s' : GameState} (hexp : Expanded s s') :
    ∀ {p : Int × Int} {x : Nat × Nat}, Reach s p x →
      (s'.grid p.1.toNat p.2.toNat).isRevealed = true →
      (s'.grid x.1 x.2).isRevealed = true := by
  intro p x hr
  induction hr with
  | base ho => exact fun h => h
  | step ho hnm hd hsub ih =>
    intro hrev
    have hsubOk := hsub.headOk
    refine ih (hexp _ _ ho hrev hnm _ hd ?_ ?_)
    · exact ⟨hsubOk.1, hsubOk.2.1, hsubOk.2.2.1, hsubOk.2.2.2.1⟩
    · exact hsubOk.2.2.2.2.2

/-- Completeness: with sufficient fuel every reachable cell ends revealed. -/
theorem revealCell_complete (fuel : Nat) (s : GameState) (row col : Int) (x : Nat × Nat)
    (hfuel : unrevealedCard s < fuel) (hr : Reach s (row, col) x) :
    ((revealCell fuel s row col).grid x.1 x.2).isRevealed = true := by
  have hok := hr.headOk
  have hf' : ∃ f', fuel = f' + 1 := ⟨fuel - 1, by omega⟩
  obtain ⟨f', rfl⟩ := hf'
  have hoob : ¬(row < 0 ∨ (s.rows : Int) ≤ row ∨ col < 0 ∨ (s.cols : Int) ≤ col) := by
    obtain ⟨a1, a2, a3, a4, _, _⟩ := hok
    omega
  have hstart := revealCell_reveals_start f' s row col hoob hok.2.2.2.2.2
  have hexp := (revealCell_expanded_aux (f' + 1)).1 s row col hfuel
  exact reach_revealed_of_expanded hexp hr hstart

/-! ### Termination: the result is fuel-independent beyond the cell count -/

theorem revealCell_fuel_stable_aux :
    ∀ f₁ : Nat,
      (∀ f₂ s row col, unrevealedCard s < f₁ → unrevealedCard s < f₂ →
        revealCell f₁ s row col = revealCell f₂ s row col) ∧
      (∀ (ps : List (Int × Int)) f₂ s, unrevealedCard s < f₁ → unrevealedCard s < f₂ →
        revealFold f₁ s ps = revealFold f₂ s ps) := by
  intro f₁
  induction f₁ with
  | zero =>
    constructor
    · intro f₂ s row col hlt; omega
    · intro ps f₂ s hlt; omega
  | succ f₁ ih =>
    have hc : ∀ f₂ s row col, unrevealedCard s < f₁ + 1 → unrevealedCard s < f₂ →
        revealCell (f₁ + 1) s row col = revealCell f₂ s row col := by
      intro f₂ s row col h₁ h₂
      have hf₂ : ∃ f₂', f₂ = f₂' + 1 := ⟨f₂ - 1, by omega⟩
      obtain ⟨f₂', rfl⟩ := hf₂
      by_cases h : row < 0 ∨ (s.rows : Int) ≤ row ∨ col < 0 ∨ (s.cols : Int) ≤ col
      · rw [revealCell_oob f₁ s row col h, revealCell_oob f₂' s row col h]
      · by_cases hskip : (s.grid row.toNat col.toNat).isRevealed = true ∨
          (s.grid row.toNat col.toNat).isFlagged = true
        · rw [revealCell_skip f₁ s row col h hskip, revealCell_skip f₂' s row col h hskip]
        · rw [revealCell_go f₁ s row col h hskip, revealCell_go f₂' s row col h hskip]
          push_neg at hskip
          have hun : (s.grid row.toNat col.toNat).isRevealed = false := by
            simpa using hskip.1
          have hcount := unrevealedCard_markRevealed s row.toNat col.toNat
            (mem_gridFinset_of_guard s h) hun
          split
          · exact ih.2 _ f₂' _ (by omega) (by omega)
          · rfl
    refine ⟨hc, ?_⟩
    intro ps
    induction ps with
    | nil =>
      intro f₂ s h₁ h₂
      rw [revealFold_nil, revealFold_nil]
    | cons p rest ihr =>
      intro f₂ s h₁ h₂
      rw [revealFold_cons, revealFold_cons]
      rw [← hc f₂ s p.1 p.2 h₁ h₂]
      exact ihr f₂ _
        (lt_of_le_of_lt (unrevealedCard_mono (revealCell_extends (f₁ + 1) s p.1 p.2)) h₁)
        (lt_of_le_of_lt (unrevealedCard_mono (revealCell_extends (f₁ + 1) s p.1 p.2)) h₂)

theorem unrevealedCard_le (s : GameState) : unrevealedCard s ≤ s.rows * s.cols := by
  unfold unrevealedCard
  calc ((gridFinset s).filter _).card ≤ (gridFinset s).card := Finset.card_filter_le _ _
    _ = s.rows * s.cols := by
      unfold gridFinset
      rw [Finset.card_product, Finset.card_range, Finset.card_range]

/-- Any fuel beyond the number of unrevealed cells computes the same
result as the canonical `rows*cols + 1` fuel of `reveal`: the recursion
terminates with depth bounded by the grid size. -/
theorem revealCell_fuel_stable (s : GameState) (row col : Int) (fuel : Nat)
    (h : unrevealedCard s < fuel) :
    revealCell fuel s row col = revealCell (s.rows * s.cols + 1) s row col :=
  (revealCell_fuel_stable_aux fuel).1 (s.rows * s.cols + 1) s row col h
    (Nat.lt_succ_of_le (unrevealedCard_le s))

/-! ### The flood fill never reveals a mine -/

theorem offsets_spec : ∀ d ∈ offsets,
    (-1 ≤ d.1 ∧ d.1 ≤ 1) ∧ (-1 ≤ d.2 ∧ d.2 ≤ 1) ∧ ¬(d.1 = 0 ∧ d.2 = 0) := by
  intro d hd
  fin_cases hd <;> norm_num

theorem chebAdj_offset {row col : Int} {d : Int × Int} (hd : d ∈ offsets)
    (h0 : 0 ≤ row) (h0' : 0 ≤ col) (h1 : 0 ≤ row + d.1) (h1' : 0 ≤ col + d.2) :
    chebAdj (row.toNat, col.toNat) ((row + d.1).toNat, (col + d.2).toNat) := by
  have hs := offsets_spec d hd
  refine ⟨?_, ?_, ?_⟩
  · intro heq
    rw [Prod.mk.injEq] at heq
    omega
  · omega
  · omega

theorem specAdj_zero_nonmine {rows cols : Nat} {g : Nat → Nat → Cell} {r c : Nat}
    (h : specAdjMineCount rows cols g r c = 0) {q : Nat × Nat}
    (hq : q ∈ Finset.range rows ×ˢ Finset.range cols) (hadj : chebAdj (r, c) q) :
    (g q.1 q.2).isMine = false := by
  unfold specAdjMineCount at h
  rw [Finset.card_eq_zero] at h
  by_contra hc
  rw [Bool.not_eq_false] at hc
  have : q ∈ (Finset.range rows ×ˢ Finset.range cols).filter
      (fun q => chebAdj (r, c) q ∧ (g q.1 q.2).isMine = true) := by
    rw [Finset.mem_filter]
    exact ⟨hq, hadj, hc⟩
  rw [h] at this
  cases this

/-- When the neighbor counts are correct, reachability from a non-mine cell
never leads into a mine. -/
theorem Reach.nonmine {s : GameState} (hnc : NumbersCorrect s) :
    ∀ {p : Int × Int} {x : Nat × Nat}, Reach s p x →
      (s.grid p.1.toNat p.2.toNat).isMine = false → (s.grid x.1 x.2).isMine = false := by
  intro p x hr
  induction hr with
  | base ho => exact fun h => h
  | @step row col d x ho hnm hd hsub ih =>
    intro hm
    apply ih
    have hin : (row.toNat, col.toNat) ∈ gridFinset s := by
      simp only [gridFinset, Finset.mem_product, Finset.mem_range]
      obtain ⟨a1, a2, a3, a4, _, _⟩ := ho
      constructor <;> omega
    have hspec := hnc (row.toNat, col.toNat) hin hm
    rw [hnm] at hspec
    have hsubOk := hsub.headOk
    have hin' : ((row + d.1).toNat, (col + d.2).toNat) ∈ gridFinset s := by
      simp only [gridFinset, Finset.mem_product, Finset.mem_range]
      obtain ⟨b1, b2, b3, b4, _, _⟩ := hsubOk
      constructor <;> omega
    have hadj := chebAdj_offset hd ho.1 ho.2.2.1 hsubOk.1 hsubOk.2.2.1
    exact specAdj_zero_nonmine hspec.symm hin' hadj

/-- Revealing a non-mine cell never changes the revealed status of any
mine. -/
theorem revealCell_no_mine_reveal (fuel : Nat) (s : GameState) (row col : Int)
    (hnc : NumbersCorrect s)
    (hstart : (s.grid row.toNat col.toNat).isMine = false) :
    ∀ r c, (s.grid r c).isMine = true →
      ((revealCell fuel s row col).grid r c).isRevealed = (s.grid r c).isRevealed := by
  intro r c hm
  cases hb : (s.grid r c).isRevealed with
  | true => exact (extends_grid_facts (revealCell_extends fuel s row col) r c).2.2.2 hb
  | false =>
    by_contra hcon
    have hrev : ((revealCell fuel s row col).grid r c).isRevealed = true := by
      cases hb' : ((revealCell fuel s row col).grid r c).isRevealed with
      | true => rfl
      | false => rw [hb'] at hcon; exact absurd rfl hcon
    have hreach := revealCell_sound fuel s row col (r, c) hb hrev
    have := hreach.nonmine hnc hstart
    rw [this] at hm
    cases hm

/-! ### Correctness of the neighbor-count computation -/

theorem offsets_nodup : offsets.Nodup := by decide

theorem mem_offsets_of_bounds {a b : Int} (ha : -1 ≤ a) (ha' : a ≤ 1) (hb : -1 ≤ b)
    (hb' : b ≤ 1) (hne : ¬(a = 0 ∧ b = 0)) : (a, b) ∈ offsets := by
  unfold offsets
  simp only [List.mem_cons, List.not_mem_nil, or_false, Prod.mk.injEq]
  omega

/-- The offset loop of `countAdjacentMines` counts exactly the in-bounds
grid-adjacent mines. -/
theorem countAdjacentMines_eq_spec (rows cols : Nat) (g : Nat → Nat → Cell) (r c : Nat) :
    countAdjacentMines rows cols g r c = specAdjMineCount rows cols g r c := by
  unfold countAdjacentMines specAdjMineCount
  rw [List.countP_eq_length_filter]
  rw [← List.toFinset_card_of_nodup (offsets_nodup.filter _)]
  rw [List.toFinset_filter]
  refine Finset.card_nbij' (fun d => (((r : Int) + d.1).toNat, ((c : Int) + d.2).toNat))
    (fun q => ((q.1 : Int) - (r : Int), (q.2 : Int) - (c : Int))) ?_ ?_ ?_ ?_
  · intro d hd
    rw [Finset.mem_filter, List.mem_toFinset] at hd
    obtain ⟨hdo, hp⟩ := hd
    rw [Bool.and_eq_true, decide_eq_true_eq] at hp
    obtain ⟨hinb, hmine⟩ := hp
    obtain ⟨i1, i2, i3, i4⟩ := hinb
    dsimp only
    rw [Finset.mem_filter, Finset.mem_product, Finset.mem_range, Finset.mem_range]
    refine ⟨⟨by omega, by omega⟩, ?_, hmine⟩
    have := chebAdj_offset hdo (by omega : (0 : Int) ≤ (r : Int))
      (by omega : (0 : Int) ≤ (c : Int)) i1 i3
    simpa using this
  · intro q hq
    rw [Finset.mem_filter, Finset.mem_product, Finset.mem_range, Finset.mem_range] at hq
    obtain ⟨⟨hq1, hq2⟩, hadj, hmine⟩ := hq
    obtain ⟨hne, hd1, hd2⟩ := hadj
    dsimp only at hne hd1 hd2 ⊢
    rw [Finset.mem_filter, List.mem_toFinset]
    constructor
    · refine mem_offsets_of_bounds (by omega) (by omega) (by omega) (by omega) ?_
      intro hcon
      refine hne ?_
      rw [Prod.mk.injEq]
      constructor <;> omega
    · rw [Bool.and_eq_true, decide_eq_true_eq]
      constructor
      · exact ⟨by omega, by omega, by omega, by omega⟩
      · have h1 : ((r : Int) + ((q.1 : Int) - (r : Int))).toNat = q.1 := by omega
        have h2 : ((c : Int) + ((q.2 : Int) - (c : Int))).toNat = q.2 := by omega
        rw [h1, h2]
        exact hmine
  · intro d hd
    rw [Finset.mem_filter, List.mem_toFinset] at hd
    obtain ⟨hdo, hp⟩ := hd
    rw [Bool.and_eq_true, decide_eq_true_eq] at hp
    obtain ⟨⟨i1, i2, i3, i4⟩, _⟩ := hp
    dsimp only
    rw [Prod.mk.injEq]
    constructor <;> omega
  · intro q hq
    rw [Finset.mem_filter, Finset.mem_product, Finset.mem_range, Finset.mem_range] at hq
    obtain ⟨⟨hq1, hq2⟩, _, _⟩ := hq
    dsimp only
    rw [Prod.mk.injEq]
    constructor <;> omega

theorem calculateNumbers_isMine (rows cols : Nat) (g : Nat → Nat → Cell) (r c : Nat) :
    (calculateNumbers rows cols g r c).isMine = (g r c).isMine := by
  unfold calculateNumbers
  split <;> rfl

theorem calculateNumbers_isRevealed (rows cols : Nat) (g : Nat → Nat → Cell) (r c : Nat) :
    (calculateNumbers rows cols g r c).isRevealed = (g r c).isRevealed := by
  unfold calculateNumbers
  split <;> rfl

theorem calculateNumbers_isFlagged (rows cols : Nat) (g : Nat → Nat → Cell) (r c : Nat) :
    (calculateNumbers rows cols g r c).isFlagged = (g r c).isFlagged := by
  unfold calculateNumbers
  split <;> rfl

theorem specAdjMineCount_calculateNumbers (rows cols : Nat) (g : Nat → Nat → Cell)
    (r c : Nat) :
    specAdjMineCount rows cols (calculateNumbers rows cols g) r c =
      specAdjMineCount rows cols g r c := by
  unfold specAdjMineCount
  congr 1
  refine Finset.filter_congr ?_
  intro q _
  rw [calculateNumbers_isMine]

/-- After `calculateNumbers`, every in-bounds non-mine cell carries the
exact adjacent mine count. -/
theorem calculateNumbers_correct (rows cols : Nat) (g : Nat → Nat → Cell) (r c : Nat)
    (hr : r < rows) (hc : c < cols) (hm : (g r c).isMine = false) :
    (calculateNumbers rows cols g r c).neighborMines =
      specAdjMineCount rows cols (calculateNumbers rows cols g) r c := by
  rw [specAdjMineCount_calculateNumbers]
  unfold calculateNumbers
  rw [if_pos ⟨hr, hc, hm⟩]
  exact countAdjacentMines_eq_spec rows cols g r c

/-! ### Mine placement -/

/-- Number of mines in a raw grid. -/
def mineCardG (rows cols : Nat) (g : Nat → Nat → Cell) : Nat :=
  ((Finset.range rows ×ˢ Finset.range cols).filter (fun p => (g p.1 p.2).isMine = true)).card

theorem mineCardG_setMine (rows cols : Nat) (g : Nat → Nat → Cell) (r c : Nat)
    (hr : r < rows) (hc : c < cols) (hm : (g r c).isMine = false) :
    mineCardG rows cols (setCell g r c { g r c with isMine := true }) =
      mineCardG rows cols g + 1 := by
  unfold mineCardG
  have hset : (Finset.range rows ×ˢ Finset.range cols).filter
      (fun p => (setCell g r c { g r c with isMine := true } p.1 p.2).isMine = true) =
      insert (r, c) ((Finset.range rows ×ˢ Finset.range cols).filter
        (fun p => (g p.1 p.2).isMine = true)) := by
    ext x
    simp only [Finset.mem_insert, Finset.mem_filter, setCell]
    constructor
    · rintro ⟨hx, hmx⟩
      by_cases hx2 : x.1 = r ∧ x.2 = c
      · exact Or.inl (Prod.ext hx2.1 hx2.2)
      · rw [if_neg hx2] at hmx
        exact Or.inr ⟨hx, hmx⟩
    · rintro (rfl | ⟨hx, hmx⟩)
      · refine ⟨?_, ?_⟩
        · simp only [Finset.mem_product, Finset.mem_range]
          exact ⟨hr, hc⟩
        · rw [if_pos ⟨rfl, rfl⟩]
      · by_cases hx2 : x.1 = r ∧ x.2 = c
        · exfalso
          obtain ⟨h1, h2⟩ := hx2
          rw [← h1, ← h2] at hm
          rw [hm] at hmx
          cases hmx
        · rw [if_neg hx2]
          exact ⟨hx, hmx⟩
  rw [hset, Finset.card_insert_of_not_mem]
  simp only [Finset.mem_filter, not_and]
  intro _
  rw [hm]
  simp

theorem setCell_mine_fields (g : Nat → Nat → Cell) (a b r c : Nat) :
    (setCell g a b { g a b with isMine := true } r c).isRevealed = (g r c).isRevealed ∧
    (setCell g a b { g a b with isMine := true } r c).isFlagged = (g r c).isFlagged ∧
    (setCell g a b { g a b with isMine := true } r c).neighborMines =
      (g r c).neighborMines := by
  unfold setCell
  split
  case isTrue h =>
    obtain ⟨h1, h2⟩ := h
    subst h1; subst h2
    exact ⟨rfl, rfl, rfl⟩
  case isFalse h => exact ⟨rfl, rfl, rfl⟩

/-- Loop invariant of the rejection-sampling placement: the mines match the
counter, the first click's Chebyshev-1 neighborhood stays clean, and only
`isMine` bits change. -/
theorem placeMinesAux_invariant (rows cols target fr fc : Nat) (hrows : 0 < rows)
    (hcols : 0 < cols) :
    ∀ (rng : List (Nat × Nat)) (g : Nat → Nat → Cell) (placed : Nat),
      mineCardG rows cols g = placed →
      (∀ (r c : Nat), r < rows → c < cols → ((r : Int) - (fr : Int)).natAbs ≤ 1 →
        ((c : Int) - (fc : Int)).natAbs ≤ 1 → (g r c).isMine = false) →
      mineCardG rows cols (placeMinesAux rows cols target fr fc rng g placed).1 =
          (placeMinesAux rows cols target fr fc rng g placed).2 ∧
        (∀ (r c : Nat), r < rows → c < cols → ((r : Int) - (fr : Int)).natAbs ≤ 1 →
          ((c : Int) - (fc : Int)).natAbs ≤ 1 →
          ((placeMinesAux rows cols target fr fc rng g placed).1 r c).isMine = false) ∧
        (∀ r c,
          ((placeMinesAux rows cols target fr fc rng g placed).1 r c).isRevealed =
            (g r c).isRevealed ∧
          ((placeMinesAux rows cols target fr fc rng g placed).1 r c).isFlagged =
            (g r c).isFlagged ∧
          ((placeMinesAux rows cols target fr fc rng g placed).1 r c).neighborMines =
            (g r c).neighborMines) := by
  intro rng
  induction rng with
  | nil =>
    intro g placed hcard hzone
    rw [placeMinesAux]
    split
    · exact ⟨hcard, hzone, fun r c => ⟨rfl, rfl, rfl⟩⟩
    · exact ⟨hcard, hzone, fun r c => ⟨rfl, rfl, rfl⟩⟩
  | cons xy rest ih =>
    intro g placed hcard hzone
    rw [placeMinesAux]
    split
    · exact ⟨hcard, hzone, fun r c => ⟨rfl, rfl, rfl⟩⟩
    case isFalse hnfull =>
      obtain ⟨x, y⟩ := xy
      simp only
      split
      case isTrue hacc =>
        obtain ⟨hnm, hnfc⟩ := hacc
        have hr : x % rows < rows := Nat.mod_lt x hrows
        have hcb : y % cols < cols := Nat.mod_lt y hcols
        have hcard₁ : mineCardG rows cols
            (setCell g (x % rows) (y % cols)
              { g (x % rows) (y % cols) with isMine := true }) = placed + 1 := by
          rw [mineCardG_setMine rows cols g _ _ hr hcb hnm, hcard]
        have hzone₁ : ∀ (r c : Nat), r < rows → c < cols →
            ((r : Int) - (fr : Int)).natAbs ≤ 1 →
            ((c : Int) - (fc : Int)).natAbs ≤ 1 →
            (setCell g (x % rows) (y % cols)
              { g (x % rows) (y % cols) with isMine := true } r c).isMine = false := by
          intro r c hrb hcbnd h1 h2
          unfold setCell
          split
          case isTrue heq =>
            exfalso
            obtain ⟨e1, e2⟩ := heq
            refine hnfc ⟨?_, ?_⟩
            · rw [← e1]; exact h1
            · rw [← e2]; exact h2
          case isFalse heq => exact hzone r c hrb hcbnd h1 h2
        obtain ⟨ha, hb, hfields⟩ := ih _ (placed + 1) hcard₁ hzone₁
        refine ⟨ha, hb, fun r c => ?_⟩
        obtain ⟨p1, p2, p3⟩ := hfields r c
        obtain ⟨q1, q2, q3⟩ := setCell_mine_fields g (x % rows) (y % cols) r c
        exact ⟨p1.trans q1, p2.trans q2, p3.trans q3⟩
      case isFalse hrej =>
        exact ih g placed hcard hzone

theorem mineCardG_zero (rows cols : Nat) (g : Nat → Nat → Cell)
    (h : ∀ p ∈ Finset.range rows ×ˢ Finset.range cols, (g p.1 p.2).isMine = false) :
    mineCardG rows cols g = 0 := by
  unfold mineCardG
  rw [Finset.card_eq_zero]
  rw [Finset.eq_empty_iff_forall_not_mem]
  intro p hp
  rw [Finset.mem_filter] at hp
  rw [h p hp.1] at hp
  exact absurd hp.2 (by simp)

/-- What a completed `placeMines` guarantees, starting from a mine-free
grid: exactly `mineCount` mines, none in the first click's neighborhood,
correct numbers, and untouched revealed/flag bits. -/
theorem placeMines_spec {rng : List (Nat × Nat)} {s s₁ : GameState} {fr fc : Nat}
    (h : placeMines rng s fr fc = some s₁) (hrows : 0 < s.rows) (hcols : 0 < s.cols)
    (hmf : ∀ p ∈ gridFinset s, (s.grid p.1 p.2).isMine = false) :
    s₁.rows = s.rows ∧ s₁.cols = s.cols ∧ s₁.mineCount = s.mineCount ∧
    s₁.flagCount = s.flagCount ∧ s₁.revealedCount = s.revealedCount ∧
    s₁.outcome = s.outcome ∧ s₁.gameStarted = true ∧ s₁.hints = s.hints ∧
    s₁.isTimeAttack = s.isTimeAttack ∧ s₁.timer = s.timer ∧
    mineCard s₁ = s.mineCount ∧
    (∀ (r c : Nat), r < s.rows → c < s.cols → ((r : Int) - (fr : Int)).natAbs ≤ 1 →
      ((c : Int) - (fc : Int)).natAbs ≤ 1 → (s₁.grid r c).isMine = false) ∧
    NumbersCorrect s₁ ∧
    (∀ r c, (s₁.grid r c).isRevealed = (s.grid r c).isRevealed ∧
      (s₁.grid r c).isFlagged = (s.grid r c).isFlagged) := by
  unfold placeMines at h
  split at h
  case isFalse => cases h
  case isTrue hcomp =>
    have hs₁ : s₁ = { s with
        grid := calculateNumbers s.rows s.cols
          (placeMinesAux s.rows s.cols s.mineCount fr fc rng s.grid 0).1,
        gameStarted := true } := by
      injection h with h'
      exact h'.symm
    subst hs₁
    have hzero : mineCardG s.rows s.cols s.grid = 0 := mineCardG_zero s.rows s.cols s.grid hmf
    obtain ⟨hcard, hzone, hfields⟩ := placeMinesAux_invariant s.rows s.cols s.mineCount fr fc
      hrows hcols rng s.grid 0 hzero
      (fun r c hr hc _ _ => hmf (r, c) (by
        simp only [gridFinset, Finset.mem_product, Finset.mem_range]
        exact ⟨hr, hc⟩))
    refine ⟨rfl, rfl, rfl, rfl, rfl, rfl, rfl, rfl, rfl, rfl, ?_, ?_, ?_, ?_⟩
    · unfold mineCard
      have hmm : (gridFinset { s with
          grid := calculateNumbers s.rows s.cols
            (placeMinesAux s.rows s.cols s.mineCount fr fc rng s.grid 0).1,
          gameStarted := true }).filter
          (fun p => ((calculateNumbers s.rows s.cols
            (placeMinesAux s.rows s.cols s.mineCount fr fc rng s.grid 0).1)
              p.1 p.2).isMine = true) =
          (Finset.range s.rows ×ˢ Finset.range s.cols).filter
            (fun p => ((placeMinesAux s.rows s.cols s.mineCount fr fc rng s.grid 0).1
              p.1 p.2).isMine = true) := by
        refine Finset.filter_congr ?_
        intro q _
        rw [calculateNumbers_isMine]
      rw [hmm]
      rw [← mineCardG]
      rw [hcard, hcomp]
    · intro r c hr hc h1 h2
      rw [calculateNumbers_isMine]
      exact hzone r c hr hc h1 h2
    · intro p hp hm
      rw [calculateNumbers_isMine] at hm
      simp only [gridFinset, Finset.mem_product, Finset.mem_range] at hp
      exact calculateNumbers_correct s.rows s.cols _ p.1 p.2 hp.1 hp.2 hm
    · intro r c
      rw [calculateNumbers_isRevealed, calculateNumbers_isFlagged]
      obtain ⟨f1, f2, _⟩ := hfields r c
      exact ⟨f1, f2⟩

/-! ### Static-field congruences -/

/-- Two states with the same dimensions, mine layout and numbers (revealed
and flag bits may differ). -/
def SameStatic (s t : GameState) : Prop :=
  t.rows = s.rows ∧ t.cols = s.cols ∧ t.mineCount = s.mineCount ∧
  ∀ r c, (t.grid r c).isMine = (s.grid r c).isMine ∧
    (t.grid r c).neighborMines = (s.grid r c).neighborMines

theorem sameStatic_rfl (s : GameState) : SameStatic s s :=
  ⟨rfl, rfl, rfl, fun _ _ => ⟨rfl, rfl⟩⟩

theorem sameStatic_trans {s t u : GameState} (h₁ : SameStatic s t) (h₂ : SameStatic t u) :
    SameStatic s u := by
  obtain ⟨a1, a2, a3, a4⟩ := h₁
  obtain ⟨b1, b2, b3, b4⟩ := h₂
  refine ⟨b1.trans a1, b2.trans a2, b3.trans a3, fun r c => ?_⟩
  exact ⟨(b4 r c).1.trans (a4 r c).1, (b4 r c).2.trans (a4 r c).2⟩

theorem SameStatic.of_extends {s t : GameState} (h : RevealExtends s t) : SameStatic s t :=
  ⟨h.1, h.2.1, h.2.2.1, fun r c =>
    ⟨(extends_grid_facts h r c).1, (extends_grid_facts h r c).2.2.1⟩⟩

theorem gridFinset_congr {s t : GameState} (h : SameStatic s t) :
    gridFinset t = gridFinset s := by
  unfold gridFinset
  rw [h.1, h.2.1]

theorem specAdjMineCount_congr {rows cols : Nat} {g g' : Nat → Nat → Cell}
    (h : ∀ r c, (g' r c).isMine = (g r c).isMine) (r c : Nat) :
    specAdjMineCount rows cols g' r c = specAdjMineCount rows cols g r c := by
  unfold specAdjMineCount
  congr 1
  refine Finset.filter_congr ?_
  intro q _
  rw [h q.1 q.2]

theorem NumbersCorrect_congr {s t : GameState} (h : SameStatic s t)
    (hnc : NumbersCorrect s) : NumbersCorrect t := by
  intro p hp hm
  rw [gridFinset_congr h] at hp
  rw [(h.2.2.2 p.1 p.2).1] at hm
  rw [(h.2.2.2 p.1 p.2).2, hnc p hp hm, h.1, h.2.1]
  exact (specAdjMineCount_congr (fun r c => (h.2.2.2 r c).1) p.1 p.2).symm

theorem mineCard_congr {s t : GameState} (h : SameStatic s t) : mineCard t = mineCard s := by
  unfold mineCard
  rw [gridFinset_congr h]
  refine congrArg Finset.card (Finset.filter_congr ?_)
  intro q _
  rw [(h.2.2.2 q.1 q.2).1]

theorem revealedSafeCard_congr {s t : GameState}
    (hrc : t.rows = s.rows) (hcc : t.cols = s.cols)
    (h : ∀ r c, (t.grid r c).isMine = (s.grid r c).isMine ∧
      (t.grid r c).isRevealed = (s.grid r c).isRevealed) :
    revealedSafeCard t = revealedSafeCard s := by
  unfold revealedSafeCard gridFinset
  rw [hrc, hcc]
  refine congrArg Finset.card (Finset.filter_congr ?_)
  intro q _
  rw [(h q.1 q.2).1, (h q.1 q.2).2]

theorem revealedSafeCard_le (s : GameState) :
    revealedSafeCard s + mineCard s ≤ s.rows * s.cols := by
  have hsub : revealedSafeCard s ≤ ((gridFinset s).filter
      (fun p => ¬(s.grid p.1 p.2).isMine = true)).card := by
    refine Finset.card_le_card ?_
    intro p hp
    rw [Finset.mem_filter] at hp ⊢
    refine ⟨hp.1, ?_⟩
    rw [hp.2.1]
    simp
  have htot := Finset.filter_card_add_filter_neg_card_eq_card
    (s := gridFinset s) (fun p => (s.grid p.1 p.2).isMine = true)
  have hcard : (gridFinset s).card = s.rows * s.cols := by
    unfold gridFinset
    rw [Finset.card_product, Finset.card_range, Finset.card_range]
  unfold mineCard
  omega

/-! ### Field facts for the small game-state mutators -/

theorem revealAllMines_grid (s : GameState) (r c : Nat) :
    (revealAllMines s).grid r c =
      if r < s.rows ∧ c < s.cols ∧ (s.grid r c).isMine = true then
        { s.grid r c with isRevealed := true }
      else s.grid r c := rfl

theorem revealAllMines_static (s : GameState) : SameStatic s (revealAllMines s) := by
  refine ⟨rfl, rfl, rfl, fun r c => ?_⟩
  rw [revealAllMines_grid]
  split <;> exact ⟨rfl, rfl⟩

theorem revealAllMines_flag (s : GameState) (r c : Nat) :
    ((revealAllMines s).grid r c).isFlagged = (s.grid r c).isFlagged := by
  rw [revealAllMines_grid]
  split <;> rfl

theorem revealMine_grid (s : GameState) (row col r c : Nat) :
    ((revealMine s row col).grid r c) =
      if r = row ∧ c = col then { s.grid row col with isRevealed := true }
      else s.grid r c := by
  unfold revealMine setCell
  simp only

theorem revealMine_static (s : GameState) (row col : Nat) :
    SameStatic s (revealMine s row col) := by
  refine ⟨rfl, rfl, rfl, fun r c => ?_⟩
  rw [revealMine_grid]
  split
  case isTrue h =>
    obtain ⟨h1, h2⟩ := h
    subst h1; subst h2
    exact ⟨rfl, rfl⟩
  case isFalse h => exact ⟨rfl, rfl⟩

theorem endGame_outcome (won : Bool) (s : GameState) :
    (endGame won s).outcome = some won := by
  unfold endGame
  split <;> rfl

theorem endGame_true (s : GameState) : endGame true s = { s with outcome := some true } := by
  unfold endGame
  rfl

/-! ### The invariant holds initially and is preserved by every action -/

theorem setCell_flag_fields (g : Nat → Nat → Cell) (a b r c : Nat) (fl : Bool) :
    (setCell g a b { g a b with isFlagged := fl } r c).isMine = (g r c).isMine ∧
    (setCell g a b { g a b with isFlagged := fl } r c).isRevealed = (g r c).isRevealed ∧
    (setCell g a b { g a b with isFlagged := fl } r c).neighborMines =
      (g r c).neighborMines := by
  unfold setCell
  split
  case isTrue h =>
    obtain ⟨h1, h2⟩ := h
    subst h1; subst h2
    exact ⟨rfl, rfl, rfl⟩
  case isFalse h => exact ⟨rfl, rfl, rfl⟩

theorem Inv_of_eq_fields {s t : GameState} (h : Inv s) (hrows : t.rows = s.rows)
    (hcols : t.cols = s.cols) (hmc : t.mineCount = s.mineCount) (hgrid : t.grid = s.grid)
    (hrc : t.revealedCount = s.revealedCount) (hoc : t.outcome = s.outcome)
    (hgs : t.gameStarted = s.gameStarted) : Inv t := by
  obtain ⟨hA, hB, hC, hD, hE, hF⟩ := h
  have hgf : gridFinset t = gridFinset s := by
    unfold gridFinset
    rw [hrows, hcols]
  refine ⟨?_, ?_, ?_, ?_, ?_, ?_⟩
  · rw [hrows, hcols, hmc]; exact hA
  · intro hst
    rw [hgs] at hst
    obtain ⟨h1, h2⟩ := hB hst
    rw [hrc, hgf, hgrid]
    exact ⟨h1, h2⟩
  · intro hst
    rw [hgs] at hst
    obtain ⟨h1, h2⟩ := hC hst
    constructor
    · intro p hp hm
      rw [hgf] at hp
      rw [hgrid] at hm
      rw [hgrid, hrows, hcols]
      exact h1 p hp hm
    · unfold mineCard
      rw [hgf, hgrid, hmc]
      exact h2
  · rw [hrc]
    unfold revealedSafeCard
    rw [hgf, hgrid]
    exact hD
  · intro p hp h1 h2
    rw [hgf] at hp
    rw [hgrid] at h1 h2 ⊢
    rw [hoc]
    exact hE p hp h1 h2
  · intro hn
    rw [hoc] at hn
    rw [hrc, hrows, hcols, hmc]
    exact hF hn

theorem Inv_initState (rows cols mines : Nat) (ta : Bool) (limit : Int)
    (hv : Valid rows cols mines) : Inv (initState rows cols mines ta limit) := by
  obtain ⟨h1, h2, h3, h4⟩ := hv
  refine ⟨⟨h1, h2, h3, h4⟩, ?_, ?_, ?_, ?_, ?_⟩
  · intro _
    exact ⟨rfl, fun p _ => ⟨rfl, rfl, rfl⟩⟩
  · intro hst
    cases hst
  · have hz : revealedSafeCard (initState rows cols mines ta limit) = 0 := by
      unfold revealedSafeCard
      rw [Finset.card_eq_zero, Finset.eq_empty_iff_forall_not_mem]
      intro p hp
      rw [Finset.mem_filter] at hp
      exact absurd hp.2.2 (by simp [initState, newCell])
    rw [hz]
    rfl
  · intro p hp hrev
    exact absurd hrev (by simp [initState, newCell])
  · intro _
    show 0 < rows * cols - mines
    omega

theorem Inv_handleFlag {s : GameState} (hInv : Inv s) (row col : Nat) :
    Inv (handleFlag s row col) := by
  unfold handleFlag
  split
  case isTrue => exact hInv
  case isFalse hg =>
    rw [not_or, Bool.not_eq_true, Bool.not_eq_true] at hg
    obtain ⟨hgo, hrv⟩ := hg
    obtain ⟨hA, hB, hC, hD, hE, hF⟩ := hInv
    refine ⟨hA, ?_, ?_, ?_, ?_, ?_⟩
    · intro hst
      obtain ⟨h1, h2⟩ := hB hst
      refine ⟨h1, fun p hp => ?_⟩
      obtain ⟨f1, f2, f3⟩ := setCell_flag_fields s.grid row col p.1 p.2
        (!(s.grid row col).isFlagged)
      obtain ⟨m1, m2, m3⟩ := h2 p hp
      exact ⟨f1.trans m1, f2.trans m2, f3.trans m3⟩
    · intro hst
      obtain ⟨h1, h2⟩ := hC hst
      have hstatic : SameStatic s { s with
          grid := setCell s.grid row col
            { s.grid row col with isFlagged := !(s.grid row col).isFlagged },
          flagCount := if !(s.grid row col).isFlagged then s.flagCount + 1
            else s.flagCount - 1 } := by
        refine ⟨rfl, rfl, rfl, fun r c => ?_⟩
        obtain ⟨f1, _, f3⟩ := setCell_flag_fields s.grid row col r c
          (!(s.grid row col).isFlagged)
        exact ⟨f1, f3⟩
      exact ⟨NumbersCorrect_congr hstatic h1, (mineCard_congr hstatic).trans h2⟩
    · rw [hD]
      symm
      refine revealedSafeCard_congr rfl rfl (fun r c => ?_)
      obtain ⟨f1, f2, _⟩ := setCell_flag_fields s.grid row col r c
        (!(s.grid row col).isFlagged)
      exact ⟨f1, f2⟩
    · intro p hp h1 h2
      have h1' : (s.grid p.1 p.2).isRevealed = true := by
        rw [← (setCell_flag_fields s.grid row col p.1 p.2
          (!(s.grid row col).isFlagged)).2.1]
        exact h1
      by_cases hpc : p.1 = row ∧ p.2 = col
      · exfalso
        obtain ⟨e1, e2⟩ := hpc
        rw [e1, e2] at h1'
        rw [h1'] at hrv
        exact absurd hrv (by decide)
      · have h2' : (s.grid p.1 p.2).isFlagged = true := by
          rw [← setCell_of_ne s.grid row col
            { s.grid row col with isFlagged := !(s.grid row col).isFlagged } p.1 p.2 hpc]
          exact h2
        have hres := hE p hp h1' h2'
        constructor
        · rw [(setCell_flag_fields s.grid row col p.1 p.2
            (!(s.grid row col).isFlagged)).1]
          exact hres.1
        · exact hres.2
    · intro hn
      exact hF hn

theorem outcome_none_of_not_gameOver {s : GameState} (h : s.gameOver = false) :
    s.outcome = none := by
  unfold GameState.gameOver at h
  cases ho : s.outcome with
  | none => rfl
  | some b => rw [ho] at h; cases h

/-- `endGame false` (reveal all mines) preserves the invariant whenever the
game was still live. -/
theorem Inv_endGame_false {s : GameState} (hInv : Inv s) (hnone : s.outcome = none) :
    Inv (endGame false s) := by
  obtain ⟨hA, hB, hC, hD, hE, hF⟩ := hInv
  show Inv (revealAllMines { s with outcome := some false })
  have hstatic : SameStatic s (revealAllMines { s with outcome := some false }) :=
    sameStatic_trans (s := s) (t := { s with outcome := some false })
      ⟨rfl, rfl, rfl, fun _ _ => ⟨rfl, rfl⟩⟩
      (revealAllMines_static { s with outcome := some false })
  refine ⟨hA, ?_, ?_, ?_, ?_, ?_⟩
  · intro hst
    obtain ⟨h1, h2⟩ := hB hst
    refine ⟨h1, fun p hp => ?_⟩
    rw [gridFinset_congr hstatic] at hp
    obtain ⟨m1, m2, m3⟩ := h2 p hp
    have hng : (revealAllMines { s with outcome := some false }).grid p.1 p.2 =
        s.grid p.1 p.2 := by
      rw [revealAllMines_grid]
      rw [if_neg]
      intro hcon
      rw [m1] at hcon
      exact absurd hcon.2.2 (by simp)
    rw [hng]
    exact ⟨m1, m2, m3⟩
  · intro hst
    obtain ⟨h1, h2⟩ := hC hst
    exact ⟨NumbersCorrect_congr hstatic h1, (mineCard_congr hstatic).trans h2⟩
  · show s.revealedCount = _
    conv_lhs => rw [hD]
    unfold revealedSafeCard
    rw [gridFinset_congr hstatic]
    refine congrArg Finset.card (Finset.filter_congr fun q _ => ?_)
    rw [revealAllMines_grid]
    split
    case isTrue hcon =>
      have hmq : (s.grid q.1 q.2).isMine = true := hcon.2.2
      constructor
      · rintro ⟨hq, -⟩
        have hq' : (s.grid q.1 q.2).isMine = false := hq
        rw [hmq] at hq'
        cases hq'
      · rintro ⟨hq, -⟩
        have hq' : (s.grid q.1 q.2).isMine = false := hq
        rw [hmq] at hq'
        cases hq'
    case isFalse hcon => exact Iff.rfl
  · intro p hp h1 h2
    rw [revealAllMines_grid] at h1 h2
    refine ⟨?_, rfl⟩
    by_cases hcond : p.1 < s.rows ∧ p.2 < s.cols ∧ (s.grid p.1 p.2).isMine = true
    · rw [revealAllMines_grid, if_pos hcond]
      exact hcond.2.2
    · rw [if_neg hcond] at h1 h2
      have := hE p (by rw [gridFinset_congr hstatic] at hp; exact hp) h1 h2
      rw [this.2] at hnone
      cases hnone
  · intro hn
    have hn' : (some false : Option Bool) = none := hn
    cases hn'

/-- `revealMine` on an unflagged mine preserves the invariant of a started
game. -/
theorem Inv_revealMine {s : GameState} (hInv : Inv s) (row col : Nat)
    (hmine : (s.grid row col).isMine = true) (hflag : (s.grid row col).isFlagged = false)
    (hst : s.gameStarted = true) : Inv (revealMine s row col) := by
  obtain ⟨hA, hB, hC, hD, hE, hF⟩ := hInv
  have hstatic : SameStatic s (revealMine s row col) := revealMine_static s row col
  refine ⟨hA, ?_, ?_, ?_, ?_, ?_⟩
  · intro hst'
    have hst'' : s.gameStarted = false := hst'
    rw [hst] at hst''
    cases hst''
  · intro _
    obtain ⟨h1, h2⟩ := hC hst
    exact ⟨NumbersCorrect_congr hstatic h1, (mineCard_congr hstatic).trans h2⟩
  · show s.revealedCount = _
    rw [hD]
    unfold revealedSafeCard
    rw [gridFinset_congr hstatic]
    refine congrArg Finset.card (Finset.filter_congr fun q _ => ?_)
    rw [revealMine_grid]
    split
    case isTrue h =>
      obtain ⟨e1, e2⟩ := h
      constructor
      · rintro ⟨hq, -⟩
        rw [e1, e2, hmine] at hq
        cases hq
      · rintro ⟨hq, -⟩
        exact absurd hq (by simp [hmine])
    case isFalse h => exact Iff.rfl
  · intro p hp h1 h2
    rw [revealMine_grid] at h1 h2
    by_cases hpc : p.1 = row ∧ p.2 = col
    · rw [if_pos hpc] at h2
      exfalso
      have : (s.grid row col).isFlagged = true := h2
      rw [this] at hflag
      cases hflag
    · rw [if_neg hpc] at h1 h2
      have := hE p (by rw [gridFinset_congr hstatic] at hp; exact hp) h1 h2
      refine ⟨?_, this.2⟩
      rw [revealMine_grid, if_neg hpc]
      exact this.1
  · intro hn
    exact hF hn

theorem revealedSafeCard_eq_zero {s : GameState}
    (h : ∀ p ∈ gridFinset s, (s.grid p.1 p.2).isRevealed = false) :
    revealedSafeCard s = 0 := by
  unfold revealedSafeCard
  rw [Finset.card_eq_zero, Finset.eq_empty_iff_forall_not_mem]
  intro p hp
  rw [Finset.mem_filter] at hp
  rw [h p hp.1] at hp
  exact absurd hp.2.2 (by simp)

theorem reveal_extends (s : GameState) (row col : Nat) :
    RevealExtends s (reveal s row col) :=
  revealCell_extends (s.rows * s.cols + 1) s (row : Int) (col : Int)

theorem reveal_count_newly (s : GameState) (row col : Nat) :
    (reveal s row col).revealedCount =
      s.revealedCount + newlyRevealedCard s (reveal s row col) :=
  revealCell_count_newly (s.rows * s.cols + 1) s (row : Int) (col : Int)

theorem reveal_no_mine (s : GameState) (row col : Nat) (hnc : NumbersCorrect s)
    (hstart : (s.grid row col).isMine = false) :
    ∀ r c, (s.grid r c).isMine = true →
      ((reveal s row col).grid r c).isRevealed = (s.grid r c).isRevealed :=
  revealCell_no_mine_reveal (s.rows * s.cols + 1) s (row : Int) (col : Int) hnc
    (by rw [Int.toNat_natCast, Int.toNat_natCast]; exact hstart)

theorem reveal_sound (s : GameState) (row col : Nat) (x : Nat × Nat)
    (hun : (s.grid x.1 x.2).isRevealed = false)
    (hrev : ((reveal s row col).grid x.1 x.2).isRevealed = true) :
    Reach s ((row : Int), (col : Int)) x :=
  revealCell_sound (s.rows * s.cols + 1) s (row : Int) (col : Int) x hun hrev

/-- The branch of `handleReveal` taken once mines exist: either the mine
loss path or the flood fill plus win check; both preserve the invariant. -/
theorem Inv_revealBody {s₁ : GameState} (hInv₁ : Inv s₁) (row col : Nat)
    (hst : s₁.gameStarted = true) (hnone : s₁.outcome = none)
    (hflag : (s₁.grid row col).isFlagged = false) :
    Inv (if (s₁.grid row col).isMine = true then endGame false (revealMine s₁ row col)
      else if checkWin (reveal s₁ row col) then endGame true (reveal s₁ row col)
      else reveal s₁ row col) := by
  split
  case isTrue hmine =>
    exact Inv_endGame_false (Inv_revealMine hInv₁ row col hmine hflag hst) hnone
  case isFalse hmine =>
    rw [Bool.not_eq_true] at hmine
    have hnc : NumbersCorrect s₁ := (hInv₁.2.2.1 hst).1
    have hmc : mineCard s₁ = s₁.mineCount := (hInv₁.2.2.1 hst).2
    have hext : RevealExtends s₁ (reveal s₁ row col) := reveal_extends s₁ row col
    have hnomine := reveal_no_mine s₁ row col hnc hmine
    have hcount := reveal_count_newly s₁ row col
    have hsafe := revealedSafeCard_split hext hnomine
    have hD₁ : s₁.revealedCount = revealedSafeCard s₁ := hInv₁.2.2.2.1
    have hD₂ : (reveal s₁ row col).revealedCount =
        revealedSafeCard (reveal s₁ row col) := by omega
    have hE₂ : ∀ p ∈ gridFinset (reveal s₁ row col),
        ¬(((reveal s₁ row col).grid p.1 p.2).isRevealed = true ∧
          ((reveal s₁ row col).grid p.1 p.2).isFlagged = true) := by
      intro p hp hcon
      obtain ⟨h1, h2⟩ := hcon
      rw [gridFinset_of_extends hext] at hp
      have hfl : (s₁.grid p.1 p.2).isFlagged = true := by
        rw [← (extends_grid_facts hext p.1 p.2).2.1]
        exact h2
      cases hrev : (s₁.grid p.1 p.2).isRevealed with
      | true =>
        have := (hInv₁.2.2.2.2.1 p hp hrev hfl).2
        rw [this] at hnone
        cases hnone
      | false =>
        have hreach := reveal_sound s₁ row col p hrev h1
        have htail := hreach.tailOk
        rw [htail.2.2.2] at hfl
        cases hfl
    have hA₁ := hInv₁.1
    have hstatic : SameStatic s₁ (reveal s₁ row col) := SameStatic.of_extends hext
    have hnc₂ : NumbersCorrect (reveal s₁ row col) := NumbersCorrect_congr hstatic hnc
    have hmc₂ : mineCard (reveal s₁ row col) = (reveal s₁ row col).mineCount := by
      rw [mineCard_congr hstatic, hmc, hext.2.2.1]
    have hgs₂ : (reveal s₁ row col).gameStarted = true := by
      rw [hext.2.2.2.2.2.1]
      exact hst
    split
    case isTrue hwin =>
      rw [endGame_true]
      refine ⟨?_, ?_, ?_, ?_, ?_, ?_⟩
      · show 0 < (reveal s₁ row col).rows ∧ 0 < (reveal s₁ row col).cols ∧
          0 < (reveal s₁ row col).mineCount ∧
          (reveal s₁ row col).mineCount < (reveal s₁ row col).rows * (reveal s₁ row col).cols
        rw [hext.1, hext.2.1, hext.2.2.1]
        exact hA₁
      · intro hst'
        have hst'' : (reveal s₁ row col).gameStarted = false := hst'
        rw [hgs₂] at hst''
        cases hst''
      · intro _
        refine ⟨?_, ?_⟩
        · exact NumbersCorrect_congr ⟨rfl, rfl, rfl, fun _ _ => ⟨rfl, rfl⟩⟩ hnc₂
        · show mineCard { reveal s₁ row col with outcome := some true } =
            (reveal s₁ row col).mineCount
          rw [mineCard_congr ⟨rfl, rfl, rfl, fun _ _ => ⟨rfl, rfl⟩⟩]
          exact hmc₂
      · exact hD₂
      · intro p hp h1 h2
        exact absurd ⟨h1, h2⟩ (hE₂ p hp)
      · intro hn
        have hn' : (some true : Option Bool) = none := hn
        cases hn'
    case isFalse hwin =>
      refine ⟨?_, ?_, ?_, hD₂, ?_, ?_⟩
      · show 0 < (reveal s₁ row col).rows ∧ 0 < (reveal s₁ row col).cols ∧
          0 < (reveal s₁ row col).mineCount ∧
          (reveal s₁ row col).mineCount < (reveal s₁ row col).rows * (reveal s₁ row col).cols
        rw [hext.1, hext.2.1, hext.2.2.1]
        exact hA₁
      · intro hst'
        rw [hgs₂] at hst'
        cases hst'
      · intro _
        exact ⟨hnc₂, hmc₂⟩
      · intro p hp h1 h2
        exact absurd ⟨h1, h2⟩ (hE₂ p hp)
      · intro _
        unfold checkWin at hwin
        have hle := revealedSafeCard_le (reveal s₁ row col)
        have hlt : (reveal s₁ row col).mineCount <
            (reveal s₁ row col).rows * (reveal s₁ row col).cols := by
          rw [hext.1, hext.2.1, hext.2.2.1]
          exact hA₁.2.2.2
        omega

/-- What deferred mine placement establishes about the new state when the
game invariant held before the first click. -/
theorem Inv_placeMines {s s₁ : GameState} {rng : List (Nat × Nat)} {row col : Nat}
    (hInv : Inv s) (hst : s.gameStarted = false)
    (heq : placeMines rng s row col = some s₁) :
    Inv s₁ ∧ s₁.rows = s.rows ∧ s₁.cols = s.cols ∧ s₁.mineCount = s.mineCount ∧
      s₁.outcome = s.outcome ∧ s₁.gameStarted = true ∧ s₁.revealedCount = 0 ∧
      (∀ r c, (s₁.grid r c).isFlagged = (s.grid r c).isFlagged ∧
        (s₁.grid r c).isRevealed = (s.grid r c).isRevealed) := by
  obtain ⟨hrc0, hcells⟩ := hInv.2.1 hst
  obtain ⟨e1, e2, e3, e4, e5, e6, e7, e8, e9, e10, hmc₁, hzone, hnc₁, hpres⟩ :=
    placeMines_spec heq hInv.1.1 hInv.1.2.1 (fun p hp => (hcells p hp).1)
  have hgf₁ : gridFinset s₁ = gridFinset s := by
    unfold gridFinset
    rw [e1, e2]
  have hunrev₁ : ∀ p ∈ gridFinset s₁, (s₁.grid p.1 p.2).isRevealed = false := by
    intro p hp
    rw [hgf₁] at hp
    rw [(hpres p.1 p.2).1]
    exact (hcells p hp).2.1
  have hInv₁ : Inv s₁ := by
    refine ⟨?_, ?_, ?_, ?_, ?_, ?_⟩
    · rw [e1, e2, e3]
      exact hInv.1
    · intro hstX
      rw [e7] at hstX
      cases hstX
    · intro _
      refine ⟨hnc₁, ?_⟩
      rw [e3]
      exact hmc₁
    · rw [e5, hrc0, revealedSafeCard_eq_zero hunrev₁]
    · intro p hp h1 h2
      rw [hunrev₁ p hp] at h1
      cases h1
    · intro _
      rw [e5, hrc0, e1, e2, e3]
      have := hInv.1
      omega
  refine ⟨hInv₁, e1, e2, e3, e6, e7, by rw [e5, hrc0], ?_⟩
  intro r c
  exact ⟨(hpres r c).2, (hpres r c).1⟩

theorem Inv_handleReveal {s : GameState} (hInv : Inv s) (rng : List (Nat × Nat))
    (row col : Nat) : Inv (handleReveal rng s row col) := by
  unfold handleReveal
  split
  case isTrue => exact hInv
  case isFalse hg =>
    rw [not_or, not_or, Bool.not_eq_true, Bool.not_eq_true, Bool.not_eq_true] at hg
    obtain ⟨hgo, hfl, hrv⟩ := hg
    have hnone := outcome_none_of_not_gameOver hgo
    split
    next heq => exact hInv
    next s₁ heq =>
      by_cases hst : s.gameStarted = true
      · rw [if_pos hst] at heq
        have hs₁ : s = s₁ := by injection heq
        subst hs₁
        exact Inv_revealBody hInv row col hst hnone hfl
      · rw [if_neg hst] at heq
        rw [Bool.not_eq_true] at hst
        obtain ⟨hInv₁, e1, e2, e3, e6, e7, e0, hpres⟩ := Inv_placeMines hInv hst heq
        have hfl₁ : (s₁.grid row col).isFlagged = false := by
          rw [(hpres row col).1]
          exact hfl
        have hnone₁ : s₁.outcome = none := by
          rw [e6]
          exact hnone
        exact Inv_revealBody hInv₁ row col e7 hnone₁ hfl₁

theorem Inv_chordFold {ps : List (Nat × Nat)} : ∀ {t : GameState}, Inv t →
    Inv (ps.foldl (fun t p => if (t.grid p.1 p.2).isFlagged = false ∧
      (t.grid p.1 p.2).isRevealed = false then handleReveal [] t p.1 p.2 else t) t) := by
  induction ps with
  | nil => intro t h; exact h
  | cons p rest ih =>
    intro t h
    rw [List.foldl_cons]
    refine ih ?_
    split
    · exact Inv_handleReveal h [] p.1 p.2
    · exact h

theorem Inv_handleChord {s : GameState} (hInv : Inv s) (row col : Nat) :
    Inv (handleChord s row col) := by
  unfold handleChord
  split
  case isTrue => exact hInv
  case isFalse =>
    split
    case isTrue => exact Inv_chordFold hInv
    case isFalse => exact hInv

theorem Inv_useHint {s : GameState} (hInv : Inv s) (choice : Nat) :
    Inv (useHint choice s) := by
  unfold useHint
  split
  case isTrue => exact hInv
  case isFalse =>
    split
    case isTrue =>
      exact @Inv_handleReveal { s with hints := s.hints - 1 }
        (Inv_of_eq_fields hInv rfl rfl rfl rfl rfl rfl rfl) []
        (hintPick choice s).1 (hintPick choice s).2
    case isFalse => exact hInv

theorem Inv_tick {s : GameState} (hInv : Inv s) : Inv (tick s) := by
  unfold tick
  split
  case isTrue => exact hInv
  case isFalse hg =>
    rw [not_or, Bool.not_eq_false, Bool.not_eq_true] at hg
    obtain ⟨hgs, hgo⟩ := hg
    have hnone := outcome_none_of_not_gameOver hgo
    split
    case isTrue =>
      split
      case isTrue =>
        exact Inv_endGame_false (Inv_of_eq_fields hInv rfl rfl rfl rfl rfl rfl rfl) hnone
      case isFalse => exact Inv_of_eq_fields hInv rfl rfl rfl rfl rfl rfl rfl
    case isFalse => exact Inv_of_eq_fields hInv rfl rfl rfl rfl rfl rfl rfl

theorem Inv_step {s : GameState} (hInv : Inv s) (a : GAction) : Inv (step s a) := by
  cases a with
  | reveal rng row col => exact Inv_handleReveal hInv rng row col
  | flag row col => exact Inv_handleFlag hInv row col
  | chord row col =>
    show Inv (if s.gameOver = true then s else handleChord s row col)
    split
    · exact hInv
    · exact Inv_handleChord hInv row col
  | hint choice => exact Inv_useHint hInv choice
  | tick => exact Inv_tick hInv

theorem Inv_run {s : GameState} (hInv : Inv s) (as : List GAction) : Inv (run s as) := by
  induction as generalizing s with
  | nil => exact hInv
  | cons a rest ih => exact ih (Inv_step hInv a)

/-- Every reachable state satisfies the invariant. -/
theorem Inv_of_reachable {s : GameState} (h : Reachable s) : Inv s := by
  obtain ⟨rows, cols, mines, ta, limit, acts, hv, rfl⟩ := h
  exact Inv_run (Inv_initState rows cols mines ta limit hv) acts

/-! ### The win transition fires exactly at the safe-cell count -/

theorem endGame_revealedCount (won : Bool) (s : GameState) :
    (endGame won s).revealedCount = s.revealedCount := by
  unfold endGame
  split <;> rfl

theorem placeMines_nil {s : GameState} (hmc : 0 < s.mineCount) (fr fc : Nat) :
    placeMines [] s fr fc = none := by
  have h0 : (placeMinesAux s.rows s.cols s.mineCount fr fc [] s.grid 0).2 = 0 := by
    rw [placeMinesAux]
    rw [if_neg (by omega)]
  unfold placeMines
  rw [if_neg (by rw [h0]; omega)]

/-- When the revealed counter has reached the number of safe cells, every
safe cell is indeed revealed. -/
theorem allSafeRevealed_of_win {u : GameState} (hInvU : Inv u) (hst : u.gameStarted = true)
    (hcount : u.revealedCount = u.rows * u.cols - u.mineCount) :
    ∀ q ∈ gridFinset u, (u.grid q.1 q.2).isMine = false →
      (u.grid q.1 q.2).isRevealed = true := by
  have hD := hInvU.2.2.2.1
  have hmc := (hInvU.2.2.1 hst).2
  have hA := hInvU.1
  have hsub : (gridFinset u).filter
      (fun p => (u.grid p.1 p.2).isMine = false ∧ (u.grid p.1 p.2).isRevealed = true) ⊆
      (gridFinset u).filter (fun p => (u.grid p.1 p.2).isMine = false) := by
    intro p hp
    rw [Finset.mem_filter] at hp ⊢
    exact ⟨hp.1, hp.2.1⟩
  have htot := Finset.filter_card_add_filter_neg_card_eq_card
    (s := gridFinset u) (fun p => (u.grid p.1 p.2).isMine = true)
  have hcongr : (gridFinset u).filter (fun p => ¬(u.grid p.1 p.2).isMine = true) =
      (gridFinset u).filter (fun p => (u.grid p.1 p.2).isMine = false) := by
    refine Finset.filter_congr ?_
    intro q _
    rw [Bool.not_eq_true]
  have hcard : (gridFinset u).card = u.rows * u.cols := by
    unfold gridFinset
    rw [Finset.card_product, Finset.card_range, Finset.card_range]
  rw [hcongr] at htot
  have hcardB : ((gridFinset u).filter (fun p => (u.grid p.1 p.2).isMine = false)).card =
      u.rows * u.cols - mineCard u := by
    have hm : mineCard u =
        ((gridFinset u).filter (fun p => (u.grid p.1 p.2).isMine = true)).card := rfl
    omega
  have hcardA : ((gridFinset u).filter
      (fun p => (u.grid p.1 p.2).isMine = false ∧ (u.grid p.1 p.2).isRevealed = true)).card =
      u.rows * u.cols - u.mineCount := by
    show revealedSafeCard u = _
    omega
  have hAB := Finset.eq_of_subset_of_card_le hsub (by rw [hcardA, hcardB, hmc])
  intro q hq hmine
  have hqB : q ∈ (gridFinset u).filter (fun p => (u.grid p.1 p.2).isMine = false) := by
    rw [Finset.mem_filter]
    exact ⟨hq, hmine⟩
  rw [← hAB, Finset.mem_filter] at hqB
  exact hqB.2.2

/-- The `endGame(true)` transition in the body of `handleReveal` fires iff
the revealed counter equals `rows*cols - mineCount`. -/
theorem revealBody_won_iff {s₁ : GameState} (hInv₁ : Inv s₁) (row col : Nat)
    (hnone₁ : s₁.outcome = none) :
    ((if (s₁.grid row col).isMine = true then endGame false (revealMine s₁ row col)
      else if checkWin (reveal s₁ row col) then endGame true (reveal s₁ row col)
      else reveal s₁ row col).outcome = some true ↔
    (if (s₁.grid row col).isMine = true then endGame false (revealMine s₁ row col)
      else if checkWin (reveal s₁ row col) then endGame true (reveal s₁ row col)
      else reveal s₁ row col).revealedCount = s₁.rows * s₁.cols - s₁.mineCount) := by
  split
  case isTrue hmine =>
    refine iff_of_false ?_ ?_
    · rw [endGame_outcome]
      simp
    · rw [endGame_revealedCount]
      have hr : (revealMine s₁ row col).revealedCount = s₁.revealedCount := rfl
      rw [hr]
      have := hInv₁.2.2.2.2.2 hnone₁
      omega
  case isFalse hmine =>
    split
    case isTrue hwin =>
      refine iff_of_true ?_ ?_
      · rw [endGame_outcome]
      · rw [endGame_revealedCount]
        unfold checkWin at hwin
        have hext := reveal_extends s₁ row col
        rw [hext.1, hext.2.1, hext.2.2.1] at hwin
        exact hwin
    case isFalse hwin =>
      refine iff_of_false ?_ ?_
      · have hoeq : (reveal s₁ row col).outcome = s₁.outcome :=
          (reveal_extends s₁ row col).2.2.2.2.1
        rw [hoeq, hnone₁]
        simp
      · unfold checkWin at hwin
        have hext := reveal_extends s₁ row col
        rw [hext.1, hext.2.1, hext.2.2.1] at hwin
        exact hwin

/-- `handleReveal` transitions to Won exactly when the resulting revealed
count equals the number of safe cells. -/
theorem handleReveal_won_iff {s : GameState} (hInv : Inv s) (hnone : s.outcome = none)
    (rng : List (Nat × Nat)) (row col : Nat) :
    ((handleReveal rng s row col).outcome = some true ↔
      (handleReveal rng s row col).revealedCount = s.rows * s.cols - s.mineCount) := by
  unfold handleReveal
  split
  case isTrue =>
    refine iff_of_false ?_ ?_
    · rw [hnone]
      simp
    · have := hInv.2.2.2.2.2 hnone
      omega
  case isFalse hg =>
    rw [not_or, not_or, Bool.not_eq_true, Bool.not_eq_true, Bool.not_eq_true] at hg
    obtain ⟨hgo, hfl, hrv⟩ := hg
    split
    next heq =>
      refine iff_of_false ?_ ?_
      · rw [hnone]
        simp
      · have := hInv.2.2.2.2.2 hnone
        omega
    next s₁ heq =>
      by_cases hst : s.gameStarted = true
      · rw [if_pos hst] at heq
        have hs₁ : s = s₁ := by injection heq
        subst hs₁
        exact revealBody_won_iff hInv row col hnone
      · rw [if_neg hst] at heq
        rw [Bool.not_eq_true] at hst
        obtain ⟨hInv₁, e1, e2, e3, e6, e7, e0, hpres⟩ := Inv_placeMines hInv hst heq
        have hnone₁ : s₁.outcome = none := by
          rw [e6]
          exact hnone
        have := revealBody_won_iff hInv₁ row col hnone₁
        rw [e1, e2, e3] at this
        exact this

/-! ### Chording -/

/-- What one `handleReveal` made from inside a chord loop can do to the
state: only reveal further cells (never unreveal, flag, or move mines). -/
def ChordStep (t t' : GameState) : Prop :=
  t'.rows = t.rows ∧ t'.cols = t.cols ∧ t'.mineCount = t.mineCount ∧
  t'.gameStarted = t.gameStarted ∧
  ∀ r c, (t'.grid r c).isMine = (t.grid r c).isMine ∧
    (t'.grid r c).isFlagged = (t.grid r c).isFlagged ∧
    (t'.grid r c).neighborMines = (t.grid r c).neighborMines ∧
    ((t.grid r c).isRevealed = true → (t'.grid r c).isRevealed = true)

theorem chordStep_rfl (t : GameState) : ChordStep t t :=
  ⟨rfl, rfl, rfl, rfl, fun _ _ => ⟨rfl, rfl, rfl, fun h => h⟩⟩

theorem chordStep_trans {t u v : GameState} (h₁ : ChordStep t u) (h₂ : ChordStep u v) :
    ChordStep t v := by
  obtain ⟨a1, a2, a3, a4, a5⟩ := h₁
  obtain ⟨b1, b2, b3, b4, b5⟩ := h₂
  refine ⟨b1.trans a1, b2.trans a2, b3.trans a3, b4.trans a4, fun r c => ?_⟩
  obtain ⟨c1, c2, c3, c4⟩ := a5 r c
  obtain ⟨d1, d2, d3, d4⟩ := b5 r c
  exact ⟨d1.trans c1, d2.trans c2, d3.trans c3, fun h => d4 (c4 h)⟩

theorem ChordStep_revealMine (t : GameState) (row col : Nat) :
    ChordStep t (revealMine t row col) := by
  refine ⟨rfl, rfl, rfl, rfl, fun r c => ?_⟩
  rw [revealMine_grid]
  split
  case isTrue h =>
    obtain ⟨e1, e2⟩ := h
    subst e1; subst e2
    exact ⟨rfl, rfl, rfl, fun _ => rfl⟩
  case isFalse h => exact ⟨rfl, rfl, rfl, fun h => h⟩

theorem ChordStep_revealAllMines (t : GameState) : ChordStep t (revealAllMines t) := by
  refine ⟨rfl, rfl, rfl, rfl, fun r c => ?_⟩
  rw [revealAllMines_grid]
  split
  case isTrue h => exact ⟨rfl, rfl, rfl, fun _ => rfl⟩
  case isFalse h => exact ⟨rfl, rfl, rfl, fun h => h⟩

theorem ChordStep_endGame (won : Bool) (t : GameState) : ChordStep t (endGame won t) := by
  unfold endGame
  split
  · exact chordStep_rfl _
  · exact chordStep_trans (t := t) (u := { t with outcome := some won })
      ⟨rfl, rfl, rfl, rfl, fun _ _ => ⟨rfl, rfl, rfl, fun h => h⟩⟩
      (ChordStep_revealAllMines _)

theorem ChordStep_reveal (t : GameState) (row col : Nat) :
    ChordStep t (reveal t row col) := by
  have h := reveal_extends t row col
  exact ⟨h.1, h.2.1, h.2.2.1, h.2.2.2.2.2.1, fun r c =>
    ⟨(extends_grid_facts h r c).1, (extends_grid_facts h r c).2.1,
      (extends_grid_facts h r c).2.2.1, (extends_grid_facts h r c).2.2.2⟩⟩

theorem handleReveal_nil_chordStep {t : GameState} (hmc : 0 < t.mineCount)
    (row col : Nat) : ChordStep t (handleReveal [] t row col) := by
  unfold handleReveal
  split
  case isTrue => exact chordStep_rfl t
  case isFalse =>
    split
    next heq => exact chordStep_rfl t
    next s₁ heq =>
      by_cases hst : t.gameStarted = true
      · rw [if_pos hst] at heq
        have hs₁ : t = s₁ := by injection heq
        subst hs₁
        split
        · exact chordStep_trans (ChordStep_revealMine t row col) (ChordStep_endGame _ _)
        · split
          · exact chordStep_trans (ChordStep_reveal t row col) (ChordStep_endGame _ _)
          · exact ChordStep_reveal t row col
      · rw [if_neg hst, placeMines_nil hmc row col] at heq
        cases heq

theorem handleReveal_nil_outcome {t : GameState} (hmc : 0 < t.mineCount) (row col : Nat)
    (hsafe : (t.grid row col).isMine = false) :
    (handleReveal [] t row col).outcome = t.outcome ∨
      (handleReveal [] t row col).outcome = some true := by
  unfold handleReveal
  split
  case isTrue => exact Or.inl rfl
  case isFalse =>
    split
    next heq => exact Or.inl rfl
    next s₁ heq =>
      by_cases hst : t.gameStarted = true
      · rw [if_pos hst] at heq
        have hs₁ : t = s₁ := by injection heq
        subst hs₁
        rw [if_neg (by rw [hsafe]; simp)]
        split
        · exact Or.inr (endGame_outcome true _)
        · exact Or.inl (reveal_extends t row col).2.2.2.2.1
      · rw [if_neg hst, placeMines_nil hmc row col] at heq
        cases heq

theorem reveal_reveals_start (t : GameState) (row col : Nat) (hr : row < t.rows)
    (hc : col < t.cols) (hfl : (t.grid row col).isFlagged = false) :
    ((reveal t row col).grid row col).isRevealed = true := by
  have h := revealCell_reveals_start (t.rows * t.cols) t (row : Int) (col : Int)
    (by push_neg; omega)
    (by rw [Int.toNat_natCast, Int.toNat_natCast]; exact hfl)
  rw [Int.toNat_natCast, Int.toNat_natCast] at h
  exact h

theorem handleReveal_nil_reveals {t : GameState} (hnone : t.outcome = none)
    (hst : t.gameStarted = true) {row col : Nat} (hr : row < t.rows) (hc : col < t.cols)
    (hfl : (t.grid row col).isFlagged = false) (hrv : (t.grid row col).isRevealed = false)
    (hmine : (t.grid row col).isMine = false) :
    ((handleReveal [] t row col).grid row col).isRevealed = true := by
  have hgo : t.gameOver = false := by
    unfold GameState.gameOver
    rw [hnone]
    rfl
  unfold handleReveal
  rw [if_neg (by rw [hgo, hfl, hrv]; simp)]
  split
  next heq =>
    rw [if_pos hst] at heq
    cases heq
  next s₁ heq =>
    rw [if_pos hst] at heq
    have hs₁ : t = s₁ := by injection heq
    subst hs₁
    rw [if_neg (by rw [hmine]; simp)]
    have hrev := reveal_reveals_start t row col hr hc hfl
    split
    · rw [endGame_true]
      exact hrev
    · exact hrev

theorem getNeighbors_bounds (rows cols row col : Nat) :
    ∀ p ∈ getNeighbors rows cols row col, p.1 < rows ∧ p.2 < cols := by
  intro p hp
  unfold getNeighbors at hp
  rw [List.mem_filterMap] at hp
  obtain ⟨d, _, hopt⟩ := hp
  split at hopt
  case isTrue h =>
    obtain ⟨h1, h2, h3, h4⟩ := h
    injection hopt with h'
    subst h'
    constructor <;> omega
  case isFalse h => cases hopt

/-- Invariant carried through a chord's reveal loop: the state stays
invariant-respecting, only grows by reveals, and is either still live or
won with every safe cell revealed. -/
def ChordInv (s t : GameState) : Prop :=
  Inv t ∧ ChordStep s t ∧
  (t.outcome = none ∨ (t.outcome = some true ∧
    ∀ q ∈ gridFinset t, (t.grid q.1 q.2).isMine = false →
      (t.grid q.1 q.2).isRevealed = true))

theorem chordFold_reveals (s : GameState) (hstS : s.gameStarted = true) :
    ∀ (ps : List (Nat × Nat)) (t : GameState), ChordInv s t →
      (∀ p ∈ ps, p.1 < s.rows ∧ p.2 < s.cols) →
      (∀ p ∈ ps, (s.grid p.1 p.2).isFlagged = false →
        (s.grid p.1 p.2).isRevealed = false → (s.grid p.1 p.2).isMine = false) →
      ChordInv s (ps.foldl (fun t p =>
        if (t.grid p.1 p.2).isFlagged = false ∧ (t.grid p.1 p.2).isRevealed = false then
          handleReveal [] t p.1 p.2
        else t) t) ∧
      (∀ r c, (t.grid r c).isRevealed = true →
        ((ps.foldl (fun t p =>
          if (t.grid p.1 p.2).isFlagged = false ∧ (t.grid p.1 p.2).isRevealed = false then
            handleReveal [] t p.1 p.2
          else t) t).grid r c).isRevealed = true) ∧
      (∀ p ∈ ps, (s.grid p.1 p.2).isFlagged = false →
        ((ps.foldl (fun t p =>
          if (t.grid p.1 p.2).isFlagged = false ∧ (t.grid p.1 p.2).isRevealed = false then
            handleReveal [] t p.1 p.2
          else t) t).grid p.1 p.2).isRevealed = true) := by
  intro ps
  induction ps with
  | nil =>
    intro t hCI _ _
    refine ⟨hCI, fun r c h => h, ?_⟩
    intro p hp
    cases hp
  | cons p rest ih =>
    intro t hCI hbounds hsafe
    obtain ⟨hInvT, hStep, hOut⟩ := hCI
    have hstT : t.gameStarted = true := by
      rw [hStep.2.2.2.1]
      exact hstS
    have hfleq : ∀ r c, (t.grid r c).isFlagged = (s.grid r c).isFlagged :=
      fun r c => (hStep.2.2.2.2 r c).2.1
    have hmineq : ∀ r c, (t.grid r c).isMine = (s.grid r c).isMine :=
      fun r c => (hStep.2.2.2.2 r c).1
    have hrevmono : ∀ r c, (s.grid r c).isRevealed = true →
        (t.grid r c).isRevealed = true :=
      fun r c => (hStep.2.2.2.2 r c).2.2.2
    have hpb := hbounds p (List.mem_cons_self p rest)
    rw [List.foldl_cons]
    by_cases hcond : (t.grid p.1 p.2).isFlagged = false ∧ (t.grid p.1 p.2).isRevealed = false
    · obtain ⟨hcf, hcr⟩ := hcond
      have hsrev : (s.grid p.1 p.2).isRevealed = false := by
        cases hb : (s.grid p.1 p.2).isRevealed with
        | false => rfl
        | true => rw [hrevmono p.1 p.2 hb] at hcr; cases hcr
      have hsfl : (s.grid p.1 p.2).isFlagged = false := by
        rw [← hfleq]
        exact hcf
      have hsmine : (s.grid p.1 p.2).isMine = false :=
        hsafe p (List.mem_cons_self p rest) hsfl hsrev
      have htmine : (t.grid p.1 p.2).isMine = false := by
        rw [hmineq]
        exact hsmine
      have hnoneT : t.outcome = none := by
        rcases hOut with h | ⟨hwon, hall⟩
        · exact h
        · exfalso
          have hinT : p ∈ gridFinset t := by
            simp only [gridFinset, Finset.mem_product, Finset.mem_range]
            rw [hStep.1, hStep.2.1]
            exact hpb
          have := hall p hinT htmine
          rw [this] at hcr
          cases hcr
      have hmcT : 0 < t.mineCount := hInvT.1.2.2.1
      have hstep' := handleReveal_nil_chordStep hmcT p.1 p.2
      have hInvU : Inv (handleReveal [] t p.1 p.2) := Inv_handleReveal hInvT [] p.1 p.2
      have hrbounds : p.1 < t.rows ∧ p.2 < t.cols := by
        rw [hStep.1, hStep.2.1]
        exact hpb
      have hrevp := handleReveal_nil_reveals hnoneT hstT hrbounds.1 hrbounds.2 hcf hcr htmine
      have hOutU := handleReveal_nil_outcome hmcT p.1 p.2 htmine
      have hstU : (handleReveal [] t p.1 p.2).gameStarted = true := by
        rw [hstep'.2.2.2.1]
        exact hstT
      have hCIU : ChordInv s (handleReveal [] t p.1 p.2) := by
        refine ⟨hInvU, chordStep_trans hStep hstep', ?_⟩
        rcases hOutU with h | h
        · rw [h, hnoneT]
          exact Or.inl rfl
        · refine Or.inr ⟨h, ?_⟩
          have hwiniff := handleReveal_won_iff hInvT hnoneT [] p.1 p.2
          have hcnt := hwiniff.1 h
          refine allSafeRevealed_of_win hInvU hstU ?_
          rw [hstep'.1, hstep'.2.1, hstep'.2.2.1]
          exact hcnt
      rw [if_pos ⟨hcf, hcr⟩]
      obtain ⟨hCIfin, hmono', hrest⟩ := ih (handleReveal [] t p.1 p.2) hCIU
        (fun q hq => hbounds q (List.mem_cons_of_mem p hq))
        (fun q hq => hsafe q (List.mem_cons_of_mem p hq))
      refine ⟨hCIfin, ?_, ?_⟩
      · intro r c h
        exact hmono' r c ((hstep'.2.2.2.2 r c).2.2.2 h)
      · intro q hq hqfl
        rcases List.mem_cons.1 hq with heq | hq'
        · subst heq
          exact hmono' q.1 q.2 hrevp
        · exact hrest q hq' hqfl
    · rw [if_neg hcond]
      obtain ⟨hCIfin, hmono', hrest⟩ := ih t ⟨hInvT, hStep, hOut⟩
        (fun q hq => hbounds q (List.mem_cons_of_mem p hq))
        (fun q hq => hsafe q (List.mem_cons_of_mem p hq))
      refine ⟨hCIfin, hmono', ?_⟩
      intro q hq hqfl
      rcases List.mem_cons.1 hq with heq | hq'
      · subst heq
        have htfl : (t.grid q.1 q.2).isFlagged = false := by
          rw [hfleq]
          exact hqfl
        have htrev : (t.grid q.1 q.2).isRevealed = true := by
          cases hb : (t.grid q.1 q.2).isRevealed with
          | true => rfl
          | false => exact absurd ⟨htfl, hb⟩ hcond
        exact hmono' q.1 q.2 htrev
      · exact hrest q hq' hqfl

/-- A chord with mismatching flag count leaves the state untouched. -/
theorem handleChord_mismatch (s : GameState) (row col : Nat)
    (hmm : (getNeighbors s.rows s.cols row col).countP
      (fun p => (s.grid p.1 p.2).isFlagged) ≠ (s.grid row col).neighborMines) :
    handleChord s row col = s := by
  unfold handleChord
  by_cases h1 : (s.grid row col).isRevealed = false ∨ (s.grid row col).neighborMines = 0
  · rw [if_pos h1]
  · rw [if_neg h1, if_neg hmm]

/-- A chord with matching flag count, whose unflagged unrevealed neighbors
carry no mine, ends with every non-flagged neighbor revealed. -/
theorem handleChord_reveals {s : GameState} (hInv : Inv s) (row col : Nat)
    (hnone : s.outcome = none) (hrev : (s.grid row col).isRevealed = true)
    (hnm : (s.grid row col).neighborMines ≠ 0)
    (hmatch : (getNeighbors s.rows s.cols row col).countP
      (fun p => (s.grid p.1 p.2).isFlagged) = (s.grid row col).neighborMines)
    (hin : row < s.rows) (hic : col < s.cols)
    (hsafe : ∀ p ∈ getNeighbors s.rows s.cols row col,
      (s.grid p.1 p.2).isFlagged = false → (s.grid p.1 p.2).isRevealed = false →
        (s.grid p.1 p.2).isMine = false) :
    ∀ p ∈ getNeighbors s.rows s.cols row col, (s.grid p.1 p.2).isFlagged = false →
      ((handleChord s row col).grid p.1 p.2).isRevealed = true := by
  have hst : s.gameStarted = true := by
    cases hb : s.gameStarted with
    | true => rfl
    | false =>
      exfalso
      obtain ⟨-, hcells⟩ := hInv.2.1 hb
      have hmem : ((row, col) : Nat × Nat) ∈ gridFinset s := by
        simp only [gridFinset, Finset.mem_product, Finset.mem_range]
        exact ⟨hin, hic⟩
      have := (hcells (row, col) hmem).2.1
      rw [this] at hrev
      cases hrev
  unfold handleChord
  rw [if_neg (by rw [hrev]; simp [hnm])]
  rw [if_pos hmatch]
  have hfold := chordFold_reveals s hst (getNeighbors s.rows s.cols row col) s
    ⟨hInv, chordStep_rfl s, Or.inl hnone⟩
    (getNeighbors_bounds s.rows s.cols row col) hsafe
  exact hfold.2.2

/-! ### High-score bucket maintenance -/

/-- Sort order on raw times. -/
def timeLeB : Int → Int → Bool := fun a b => decide (a ≤ b)

theorem scoreLe_trans : ∀ a b c : ScoreEntry, scoreLe a b = true → scoreLe b c = true →
    scoreLe a c = true := by
  intro a b c hab hbc
  unfold scoreLe at *
  rw [decide_eq_true_eq] at *
  omega

theorem scoreLe_total : ∀ a b : ScoreEntry, (scoreLe a b || scoreLe b a) = true := by
  intro a b
  unfold scoreLe
  rw [Bool.or_eq_true, decide_eq_true_eq, decide_eq_true_eq]
  omega

theorem timeLeB_trans : ∀ a b c : Int, timeLeB a b = true → timeLeB b c = true →
    timeLeB a c = true := by
  intro a b c hab hbc
  unfold timeLeB at *
  rw [decide_eq_true_eq] at *
  omega

theorem timeLeB_total : ∀ a b : Int, (timeLeB a b || timeLeB b a) = true := by
  intro a b
  unfold timeLeB
  rw [Bool.or_eq_true, decide_eq_true_eq, decide_eq_true_eq]
  omega

theorem sorted_le_mergeSort_times (T : List Int) :
    List.Sorted (· ≤ ·) (T.mergeSort timeLeB) := by
  have h := List.sorted_mergeSort timeLeB_trans timeLeB_total T
  refine h.imp ?_
  intro a b hab
  rw [timeLeB, decide_eq_true_eq] at hab
  exact hab

/-- Sorting entries by time then projecting to times is sorting the
times. -/
theorem map_time_mergeSort (l : List ScoreEntry) :
    (l.mergeSort scoreLe).map ScoreEntry.time = (l.map ScoreEntry.time).mergeSort timeLeB := by
  refine List.eq_of_perm_of_sorted (r := (· ≤ · : Int → Int → Prop)) ?_ ?_ ?_
  · refine ((l.mergeSort_perm scoreLe).map ScoreEntry.time).trans ?_
    exact ((l.map ScoreEntry.time).mergeSort_perm timeLeB).symm
  · have h := List.sorted_mergeSort scoreLe_trans scoreLe_total l
    rw [List.Sorted, List.pairwise_map]
    refine h.imp ?_
    intro a b hab
    rw [scoreLe, decide_eq_true_eq] at hab
    exact hab
  · exact sorted_le_mergeSort_times _

theorem mergeSort_of_sorted (l : List Int) (h : List.Sorted (· ≤ ·) l) :
    l.mergeSort timeLeB = l := by
  refine List.eq_of_perm_of_sorted (r := (· ≤ · : Int → Int → Prop))
    (l.mergeSort_perm timeLeB) (sorted_le_mergeSort_times l) h

/-- Inserting into a sorted list is what the full re-sort computes. -/
theorem mergeSort_append_singleton (l : List Int) (t : Int) (h : List.Sorted (· ≤ ·) l) :
    (l ++ [t]).mergeSort timeLeB = List.orderedInsert (· ≤ ·) t l := by
  refine List.eq_of_perm_of_sorted (r := (· ≤ · : Int → Int → Prop)) ?_
    (sorted_le_mergeSort_times _) (h.orderedInsert t l)
  refine ((l ++ [t]).mergeSort_perm timeLeB).trans ?_
  refine (List.perm_append_singleton t l).trans ?_
  exact (List.perm_orderedInsert _ t l).symm

theorem take_succ_take {α : Type} (l : List α) (k : Nat) :
    (l.take (k + 1)).take k = l.take k := by
  rw [List.take_take]
  congr 1
  omega

/-- Top-k maintenance: inserting into the kept prefix and re-truncating is
the same as inserting into the full list and truncating. -/
theorem orderedInsert_take (t : Int) :
    ∀ (l : List Int) (k : Nat),
      (List.orderedInsert (· ≤ ·) t (l.take k)).take k =
        (List.orderedInsert (· ≤ ·) t l).take k := by
  intro l
  induction l with
  | nil => intro k; rw [List.take_nil]
  | cons a l' ih =>
    intro k
    match k with
    | 0 => rfl
    | k + 1 =>
      rw [List.take_succ_cons]
      rw [List.orderedInsert, List.orderedInsert]
      split
      · rw [List.take_succ_cons, List.take_succ_cons]
        congr 1
        have h : a :: l'.take k = (a :: l').take (k + 1) := rfl
        rw [h, take_succ_take]
      · rw [List.take_succ_cons, List.take_succ_cons]
        congr 1
        exact ih k

/-- One `addScore` step, at the level of kept times. -/
theorem addScore_times_step (b : List ScoreEntry) (e : ScoreEntry) (T : List Int)
    (hb : b.map ScoreEntry.time = (T.mergeSort timeLeB).take 10) :
    (addScore b e).map ScoreEntry.time =
      ((T ++ [e.time]).mergeSort timeLeB).take 10 := by
  unfold addScore
  rw [List.map_take, map_time_mergeSort, List.map_append]
  simp only [List.map_cons, List.map_nil]
  rw [hb]
  have hsorted := sorted_le_mergeSort_times T
  have hsorted_take : List.Sorted (· ≤ ·) ((T.mergeSort timeLeB).take 10) :=
    hsorted.sublist (List.take_sublist 10 _)
  rw [mergeSort_append_singleton _ _ hsorted_take]
  rw [orderedInsert_take]
  rw [← mergeSort_append_singleton _ _ hsorted]
  have h2 : (T.mergeSort timeLeB ++ [e.time]).mergeSort timeLeB =
      (T ++ [e.time]).mergeSort timeLeB := by
    refine List.eq_of_perm_of_sorted (r := (· ≤ · : Int → Int → Prop)) ?_
      (sorted_le_mergeSort_times _) (sorted_le_mergeSort_times _)
    refine ((T.mergeSort timeLeB ++ [e.time]).mergeSort_perm timeLeB).trans ?_
    refine (List.Perm.append_right [e.time] (T.mergeSort_perm timeLeB)).trans ?_
    exact ((T ++ [e.time]).mergeSort_perm timeLeB).symm
  rw [h2]

theorem addScore_fold_times :
    ∀ (es : List ScoreEntry) (b : List ScoreEntry) (T : List Int),
      b.map ScoreEntry.time = (T.mergeSort timeLeB).take 10 →
      (es.foldl addScore b).map ScoreEntry.time =
        ((T ++ es.map ScoreEntry.time).mergeSort timeLeB).take 10 := by
  intro es
  induction es with
  | nil =>
    intro b T hb
    rw [List.foldl_nil, List.map_nil, List.append_nil]
    exact hb
  | cons e rest ih =>
    intro b T hb
    rw [List.foldl_cons]
    have hstep := addScore_times_step b e T hb
    have := ih (addScore b e) (T ++ [e.time]) hstep
    rw [this]
    congr 2
    rw [List.map_cons, List.append_assoc]
    rfl

/-! ### Hint selection -/

theorem safeCells_mem {s : GameState} {p : Nat × Nat} (hp : p ∈ safeCells s) :
    p.1 < s.rows ∧ p.2 < s.cols ∧ (s.grid p.1 p.2).isMine = false ∧
      (s.grid p.1 p.2).isRevealed = false ∧ (s.grid p.1 p.2).isFlagged = false := by
  unfold safeCells at hp
  rw [List.mem_flatMap] at hp
  obtain ⟨r, hr, hp⟩ := hp
  rw [List.mem_filterMap] at hp
  obtain ⟨c, hc, hopt⟩ := hp
  rw [List.mem_range] at hr hc
  split at hopt
  case isTrue h =>
    injection hopt with h'
    subst h'
    exact ⟨hr, hc, h.1, h.2.1, h.2.2⟩
  case isFalse h => cases hopt

theorem hintPick_mem {s : GameState} (h : (safeCells s).length ≠ 0) (choice : Nat) :
    hintPick choice s ∈ safeCells s := by
  unfold hintPick
  have hlt : choice % (safeCells s).length < (safeCells s).length :=
    Nat.mod_lt choice (by omega)
  rw [List.getD_eq_getElem (safeCells s) (0, 0) hlt]
  exact List.getElem_mem hlt

/-- Completeness wrapper at the `reveal` entry point. -/
theorem reveal_complete (s : GameState) (row col : Nat) (x : Nat × Nat)
    (hr : Reach s ((row : Int), (col : Int)) x) :
    ((reveal s row col).grid x.1 x.2).isRevealed = true :=
  revealCell_complete (s.rows * s.cols + 1) s (row : Int) (col : Int) x
    (Nat.lt_succ_of_le (unrevealedCard_le s)) hr

/-! ### Concrete states used by the per-claim counterexamples and witnesses -/

instance (s : GameState) (p : Nat × Nat) : Decidable (zeroCellAt s p) := by
  unfold zeroCellAt; infer_instance

/-- A 1×4 board: the player flags (0,1), then mine placement (draw stream
`[(0,3)]`, first click (0,0)) puts the single mine at (0,3). -/
def c1State : GameState :=
  (placeMines [(0, 3)] (handleFlag (initState 1 4 1 false 0) 0 1) 0 0).getD
    (initState 1 4 1 false 0)

/-- A 1×3 board: mine placement (draw stream `[(0,2)]`, first click (0,0))
puts the single mine at (0,2). -/
def c1WState : GameState :=
  (placeMines [(0, 2)] (initState 1 3 1 false 0) 0 0).getD (initState 1 3 1 false 0)

/-- A fresh 3×3 board with one mine to be placed. -/
def c2Init : GameState := initState 3 3 1 false 0

/-- The 3×3 board after placing its mine at (2,2) with first click (0,0). -/
def c2State : GameState := (placeMines [(2, 2)] c2Init 0 0).getD c2Init

/-- A fresh 2×3 board with one mine to be placed. -/
def c3Init : GameState := initState 2 3 1 false 0

/-- The 2×3 board after placing its mine at (1,2) with first click (0,0). -/
def c3State : GameState := (placeMines [(1, 2)] c3Init 0 0).getD c3Init

/-- A fresh 9×9 board with ten mines (the classic preset). -/
def c4Init : GameState := initState 9 9 10 false 0

/-- A 3×4 board: first reveal at (0,0) places the mine at (1,3) and flood
fills; the player then flags (0,3), a wrong guess adjacent to the revealed
numbered cell (1,2). -/
def c5State : GameState :=
  run (initState 3 4 1 false 0) [.reveal [(1, 3)] 0 0, .flag 0 3]

/-- A 2×4 board: first reveal at (0,0) places the mine at (0,3) and flood
fills; the player then flags the mine (0,3) correctly. -/
def c5WState : GameState :=
  run (initState 2 4 1 false 0) [.reveal [(0, 3)] 0 0, .flag 0 3]

/-- A 1×7 board: first reveal at (0,5) places mines at (0,0) and (0,3), the
player flags the mine (0,3) and then clicks the mine (0,0), losing;
`revealAllMines` then reveals the still-flagged mine (0,3). -/
def c6State : GameState :=
  run (initState 1 7 2 false 0)
    [.reveal [(0, 0), (0, 3)] 0 5, .flag 0 3, .reveal [] 0 0]

/-- A 2×3 board: first reveal at (0,0) places the mine at (1,2) and flood
fills, leaving (0,2) as the only hint candidate. -/
def c8State : GameState := run (initState 2 3 1 false 0) [.reveal [(1, 2)] 0 0]

/-- High-score entries used by the C9 counterexample and witness. -/
def c9e1 : ScoreEntry := ⟨"A", "AAA", 1, "d"⟩

/-- See `c9e1`. -/
def c9e2 : ScoreEntry := ⟨"B", "BBB", 2, "d"⟩

/-- See `c9e1`. -/
def c9w1 : ScoreEntry := ⟨"A", "AAA", 5, "d"⟩

/-- See `c9e1`. -/
def c9w2 : ScoreEntry := ⟨"B", "BBB", 3, "d"⟩

/-! ### The claims -/

/-- C1 (amended): revealing a cell reveals exactly the cells `Reach`-able
from it — chains of neighbor steps through unrevealed, *unflagged* cells
whose interior cells all have a zero neighbor count — on top of the
previously revealed cells, and `revealedCount` grows by exactly the number
of newly revealed cells (each cell is revealed exactly once).  The claim's
flag-blind "maximal connected zero region plus border" is refuted by
`claim1_counterexample`. -/
theorem claim1_flood_region {s : GameState} (row col : Nat)
    (hr : row < s.rows) (hc : col < s.cols)
    (hunrev : (s.grid row col).isRevealed = false)
    (hunfl : (s.grid row col).isFlagged = false)
    (hmine : (s.grid row col).isMine = false)
    (hzero : (s.grid row col).neighborMines = 0) :
    (∀ x : Nat × Nat, ((reveal s row col).grid x.1 x.2).isRevealed = true ↔
      ((s.grid x.1 x.2).isRevealed = true ∨ Reach s ((row : Int), (col : Int)) x)) ∧
    (reveal s row col).revealedCount =
      s.revealedCount + newlyRevealedCard s (reveal s row col) := by
  refine ⟨fun x => ⟨?_, ?_⟩, reveal_count_newly s row col⟩
  · intro hx
    cases hxv : (s.grid x.1 x.2).isRevealed with
    | false => exact Or.inr (reveal_sound s row col x hxv hx)
    | true => exact Or.inl rfl
  · rintro (hrx | hreach)
    · exact (extends_grid_facts (reveal_extends s row col) x.1 x.2).2.2.2 hrx
    · exact reveal_complete s row col x hreach

set_option maxRecDepth 40000 in
/-- C1 witness: on the 1×3 board `c1WState` (mine at (0,2)), revealing the
zero cell (0,0) reveals exactly the `Reach`-able cells and the count is
exact. -/
theorem claim1_witness :
    (∀ x : Nat × Nat, ((reveal c1WState 0 0).grid x.1 x.2).isRevealed = true ↔
      ((c1WState.grid x.1 x.2).isRevealed = true ∨
        Reach c1WState ((0 : Int), (0 : Int)) x)) ∧
    (reveal c1WState 0 0).revealedCount =
      c1WState.revealedCount + newlyRevealedCard c1WState (reveal c1WState 0 0) :=
  @claim1_flood_region c1WState 0 0 (by decide) (by decide) (by decide) (by decide)
    (by decide) (by decide)

set_option maxRecDepth 40000 in
/-- C1 counterexample: on `c1State` — a grid state produced by mine
placement and neighbor-count computation (with a player flag on (0,1)) —
the start (0,0) is an unrevealed, unflagged, non-mine cell with a zero
count, the cell (0,1) lies in the claim's maximal zero region, yet the
flood fill from (0,0) does not reveal it: flags block the recursion. -/
theorem claim1_counterexample :
    placeMines [(0, 3)] (handleFlag (initState 1 4 1 false 0) 0 1) 0 0 = some c1State ∧
    (c1State.grid 0 0).isRevealed = false ∧ (c1State.grid 0 0).isFlagged = false ∧
    (c1State.grid 0 0).isMine = false ∧ (c1State.grid 0 0).neighborMines = 0 ∧
    specRegion c1State (0, 0) (0, 1) ∧
    ((reveal c1State 0 0).grid 0 1).isRevealed = false :=
  ⟨rfl, by decide, by decide, by decide, by decide,
    Or.inl (ZeroConn.step (ZeroConn.refl (by decide)) (by decide) (by decide)),
    by decide⟩

/-- C2: whenever the mine-placement loop completes on a fresh (mine-free)
grid, no mine lies on the first-clicked cell or any in-bounds cell at
Chebyshev distance ≤ 1 from it, and exactly `mineCount` cells carry
mines. -/
theorem claim2_placement_safe {rng : List (Nat × Nat)} {s s₁ : GameState} {fr fc : Nat}
    (h : placeMines rng s fr fc = some s₁) (hrows : 0 < s.rows) (hcols : 0 < s.cols)
    (hmf : ∀ p ∈ gridFinset s, (s.grid p.1 p.2).isMine = false) :
    (∀ r c : Nat, r < s.rows → c < s.cols → ((r : Int) - (fr : Int)).natAbs ≤ 1 →
      ((c : Int) - (fc : Int)).natAbs ≤ 1 → (s₁.grid r c).isMine = false) ∧
    mineCard s₁ = s.mineCount := by
  have hspec := placeMines_spec h hrows hcols hmf
  exact ⟨hspec.2.2.2.2.2.2.2.2.2.2.2.1, hspec.2.2.2.2.2.2.2.2.2.2.1⟩

set_option maxRecDepth 40000 in
/-- C2 witness: on the 3×3 board, placement with first click (0,0) and draw
stream `[(2,2)]` leaves the click's whole neighborhood mine-free and places
exactly one mine. -/
theorem claim2_witness :
    (∀ r c : Nat, r < c2Init.rows → c < c2Init.cols →
      ((r : Int) - ((0 : Nat) : Int)).natAbs ≤ 1 →
      ((c : Int) - ((0 : Nat) : Int)).natAbs ≤ 1 → (c2State.grid r c).isMine = false) ∧
    mineCard c2State = c2Init.mineCount :=
  claim2_placement_safe (show placeMines [(2, 2)] c2Init 0 0 = some c2State by rfl)
    (by decide) (by decide) (by decide)

/-- C3: after mine placement and number calculation, every in-bounds
non-mine cell's `neighborMines` equals the exact count of mines among its
in-bounds grid-adjacent neighbors. -/
theorem claim3_numbers_exact {rng : List (Nat × Nat)} {s s₁ : GameState} {fr fc : Nat}
    (h : placeMines rng s fr fc = some s₁) (hrows : 0 < s.rows) (hcols : 0 < s.cols)
    (hmf : ∀ p ∈ gridFinset s, (s.grid p.1 p.2).isMine = false) :
    ∀ p ∈ gridFinset s₁, (s₁.grid p.1 p.2).isMine = false →
      (s₁.grid p.1 p.2).neighborMines = specAdjMineCount s₁.rows s₁.cols s₁.grid p.1 p.2 :=
  (placeMines_spec h hrows hcols hmf).2.2.2.2.2.2.2.2.2.2.2.2.1

set_option maxRecDepth 40000 in
/-- C3 witness: on the 2×3 board with its mine at (1,2), the non-mine cell
(1,1) carries the exact adjacent-mine count. -/
theorem claim3_witness :
    (c3State.grid 1 1).neighborMines =
      specAdjMineCount c3State.rows c3State.cols c3State.grid 1 1 :=
  claim3_numbers_exact (show placeMines [(1, 2)] c3Init 0 0 = some c3State by rfl)
    (by decide) (by decide) (by decide) (1, 1) (by decide) (by decide)

/-- C4: in every reachable live game state, a reveal action ends with the
game won exactly when it ends with `revealedCount = rows*cols - mineCount`. -/
theorem claim4_win_iff {s : GameState} (h : Reachable s) (hnone : s.outcome = none)
    (rng : List (Nat × Nat)) (row col : Nat) :
    ((handleReveal rng s row col).outcome = some true ↔
      (handleReveal rng s row col).revealedCount = s.rows * s.cols - s.mineCount) :=
  handleReveal_won_iff (Inv_of_reachable h) hnone rng row col

/-- C4 witness: the win condition of the first reveal on a fresh 9×9 board
with ten mines. -/
theorem claim4_witness :
    ((handleReveal [] c4Init 0 0).outcome = some true ↔
      (handleReveal [] c4Init 0 0).revealedCount =
        c4Init.rows * c4Init.cols - c4Init.mineCount) :=
  @claim4_win_iff c4Init ⟨9, 9, 10, false, 0, [], by unfold Valid; decide, rfl⟩ rfl [] 0 0

/-- C5 (amended): a chord at a revealed numbered cell is a strict no-op when
the flagged-neighbor count differs from the cell's number; when the counts
match *and no unflagged unrevealed neighbor is a mine*, every non-flagged
neighbor ends up revealed.  The claim's unconditional "reveals all
non-flagged neighbors" is refuted by `claim5_counterexample`: a chord that
hits a mine ends the game mid-loop and leaves later neighbors unrevealed. -/
theorem claim5_chord {s : GameState} (hInv : Inv s) (row col : Nat)
    (hnone : s.outcome = none) (hrev : (s.grid row col).isRevealed = true)
    (hnm : (s.grid row col).neighborMines ≠ 0)
    (hin : row < s.rows) (hic : col < s.cols) :
    ((getNeighbors s.rows s.cols row col).countP
        (fun p => (s.grid p.1 p.2).isFlagged) ≠ (s.grid row col).neighborMines →
      handleChord s row col = s) ∧
    ((getNeighbors s.rows s.cols row col).countP
        (fun p => (s.grid p.1 p.2).isFlagged) = (s.grid row col).neighborMines →
      (∀ p ∈ getNeighbors s.rows s.cols row col,
        (s.grid p.1 p.2).isFlagged = false → (s.grid p.1 p.2).isRevealed = false →
          (s.grid p.1 p.2).isMine = false) →
      ∀ p ∈ getNeighbors s.rows s.cols row col, (s.grid p.1 p.2).isFlagged = false →
        ((handleChord s row col).grid p.1 p.2).isRevealed = true) :=
  ⟨fun hmm => handleChord_mismatch s row col hmm,
   fun hmatch hsafe => handleChord_reveals hInv row col hnone hrev hnm hmatch hin hic hsafe⟩

set_option maxRecDepth 40000 in
/-- C5 witness: on the 2×4 board with the mine correctly flagged, chording
the revealed numbered cell (0,2) reveals every non-flagged neighbor (and a
mismatching flag count would have been a no-op). -/
theorem claim5_witness :
    (((getNeighbors c5WState.rows c5WState.cols 0 2).countP
        (fun p => (c5WState.grid p.1 p.2).isFlagged) ≠ (c5WState.grid 0 2).neighborMines →
      handleChord c5WState 0 2 = c5WState) ∧
    ((getNeighbors c5WState.rows c5WState.cols 0 2).countP
        (fun p => (c5WState.grid p.1 p.2).isFlagged) = (c5WState.grid 0 2).neighborMines →
      (∀ p ∈ getNeighbors c5WState.rows c5WState.cols 0 2,
        (c5WState.grid p.1 p.2).isFlagged = false →
          (c5WState.grid p.1 p.2).isRevealed = false →
          (c5WState.grid p.1 p.2).isMine = false) →
      ∀ p ∈ getNeighbors c5WState.rows c5WState.cols 0 2,
        (c5WState.grid p.1 p.2).isFlagged = false →
          ((handleChord c5WState 0 2).grid p.1 p.2).isRevealed = true)) :=
  @claim5_chord c5WState (by decide) 0 2 (by decide) (by decide) (by decide) (by decide)
    (by decide)

set_option maxRecDepth 40000 in
/-- C5 counterexample: on `c5State` the flagged-neighbor count of the
revealed numbered cell (1,2) matches its number, yet chording there leaves
the non-flagged neighbor (2,3) unrevealed: the chord hits the mine (1,3)
(the flag was on the wrong cell), the game ends mid-loop, and the remaining
neighbors are skipped — refuting "reveals all of its non-flagged
neighbors". -/
theorem claim5_counterexample :
    (c5State.grid 1 2).isRevealed = true ∧ (c5State.grid 1 2).neighborMines ≠ 0 ∧
    (getNeighbors c5State.rows c5State.cols 1 2).countP
      (fun p => (c5State.grid p.1 p.2).isFlagged) = (c5State.grid 1 2).neighborMines ∧
    (2, 3) ∈ getNeighbors c5State.rows c5State.cols 1 2 ∧
    (c5State.grid 2 3).isFlagged = false ∧
    ((handleChord c5State 1 2).grid 2 3).isRevealed = false := by
  decide

/-- C6 (amended): in every reachable state, a cell that is simultaneously
revealed and flagged is necessarily a mine in an already-lost game (the
`revealAllMines` pass of a loss reveals flagged mines).  The claim's
"never both revealed and flagged" is refuted by `claim6_counterexample`. -/
theorem claim6_revealed_flagged {s : GameState} (h : Reachable s) :
    ∀ p ∈ gridFinset s, (s.grid p.1 p.2).isRevealed = true →
      (s.grid p.1 p.2).isFlagged = true →
      (s.grid p.1 p.2).isMine = true ∧ s.outcome = some false :=
  (Inv_of_reachable h).2.2.2.2.1

set_option maxRecDepth 40000 in
/-- C6 witness: on the lost 1×7 game `c6State`, the revealed-and-flagged
cell (0,3) is indeed a mine and the game is indeed lost. -/
theorem claim6_witness :
    (c6State.grid 0 3).isMine = true ∧ c6State.outcome = some false :=
  @claim6_revealed_flagged c6State
    ⟨1, 7, 2, false, 0, [.reveal [(0, 0), (0, 3)] 0 5, .flag 0 3, .reveal [] 0 0],
      by unfold Valid; decide, rfl⟩
    (0, 3) (by decide) (by decide) (by decide)

set_option maxRecDepth 40000 in
/-- C6 counterexample: the reachable state `c6State` (a loss with a
correctly flagged mine) has the cell (0,3) simultaneously revealed and
flagged, refuting "no cell is ever simultaneously revealed and flagged". -/
theorem claim6_counterexample :
    Reachable c6State ∧ (0, 3) ∈ gridFinset c6State ∧
    (c6State.grid 0 3).isRevealed = true ∧ (c6State.grid 0 3).isFlagged = true :=
  ⟨⟨1, 7, 2, false, 0, [.reveal [(0, 0), (0, 3)] 0 5, .flag 0 3, .reveal [] 0 0],
      by unfold Valid; decide, rfl⟩, by decide, by decide, by decide⟩

/-- C7: the flood-fill recursion is total with depth bounded by the cell
count: the number of unrevealed cells never exceeds `rows*cols`, and any
fuel beyond the unrevealed-cell count computes the same result as the
canonical `rows*cols + 1` bound — the recursion has stabilised. -/
theorem claim7_flood_terminates (s : GameState) (row col : Int) (fuel : Nat)
    (h : unrevealedCard s < fuel) :
    unrevealedCard s ≤ s.rows * s.cols ∧
    revealCell fuel s row col = revealCell (s.rows * s.cols + 1) s row col :=
  ⟨unrevealedCard_le s, revealCell_fuel_stable s row col fuel h⟩

set_option maxRecDepth 40000 in
/-- C7 witness: on a fresh 2×2 board (four unrevealed cells), fuel 6 already
computes the stable flood-fill result. -/
theorem claim7_witness :
    unrevealedCard (initState 2 2 1 false 0) < 6 ∧
    (unrevealedCard (initState 2 2 1 false 0) ≤
        (initState 2 2 1 false 0).rows * (initState 2 2 1 false 0).cols ∧
      revealCell 6 (initState 2 2 1 false 0) 0 0 =
        revealCell ((initState 2 2 1 false 0).rows * (initState 2 2 1 false 0).cols + 1)
          (initState 2 2 1 false 0) 0 0) :=
  ⟨by decide, claim7_flood_terminates (initState 2 2 1 false 0) 0 0 6 (by decide)⟩

/-- C8: whenever a hint fires (hints remain, the game is started and not
over, and a candidate exists), the selected cell is non-mine, unrevealed and
unflagged, for every random choice. -/
theorem claim8_hint_safe (s : GameState) (choice : Nat) (hh : s.hints ≠ 0)
    (hgo : s.gameOver = false) (hst : s.gameStarted = true)
    (hsc : (safeCells s).length ≠ 0) :
    (s.grid (hintPick choice s).1 (hintPick choice s).2).isMine = false ∧
    (s.grid (hintPick choice s).1 (hintPick choice s).2).isRevealed = false ∧
    (s.grid (hintPick choice s).1 (hintPick choice s).2).isFlagged = false := by
  have h := safeCells_mem (hintPick_mem hsc choice)
  exact ⟨h.2.2.1, h.2.2.2.1, h.2.2.2.2⟩

set_option maxRecDepth 40000 in
/-- C8 witness: on the running 2×3 game `c8State` the hint fires and picks a
non-mine, unrevealed, unflagged cell. -/
theorem claim8_witness :
    (c8State.grid (hintPick 0 c8State).1 (hintPick 0 c8State).2).isMine = false ∧
    (c8State.grid (hintPick 0 c8State).1 (hintPick 0 c8State).2).isRevealed = false ∧
    (c8State.grid (hintPick 0 c8State).1 (hintPick 0 c8State).2).isFlagged = false :=
  claim8_hint_safe c8State 0 (by decide) (by decide) (by decide) (by decide)

/-- C9 (amended): after at least one insertion, a bucket holds at most ten
entries, sorted ascending by time, and its times are the ten lowest among
the *starting table's and* the inserted times.  The claim's "the retained
entries are the 10 lowest times inserted" (ignoring the starting table) is
refuted by `claim9_counterexample`. -/
theorem claim9_bucket (b es : List ScoreEntry) (hne : es ≠ []) :
    (es.foldl addScore b).length ≤ 10 ∧
    List.Sorted (· ≤ ·) ((es.foldl addScore b).map ScoreEntry.time) ∧
    (es.foldl addScore b).map ScoreEntry.time =
      ((b.map ScoreEntry.time ++ es.map ScoreEntry.time).mergeSort timeLeB).take 10 := by
  obtain ⟨e, rest, rfl⟩ := List.exists_cons_of_ne_nil hne
  have hstep : (addScore b e).map ScoreEntry.time =
      ((b.map ScoreEntry.time ++ [e.time]).mergeSort timeLeB).take 10 := by
    unfold addScore
    rw [List.map_take, map_time_mergeSort, List.map_append]
    rfl
  have hmain := addScore_fold_times rest (addScore b e)
    (b.map ScoreEntry.time ++ [e.time]) hstep
  rw [List.foldl_cons]
  have heq : b.map ScoreEntry.time ++ [e.time] ++ rest.map ScoreEntry.time =
      b.map ScoreEntry.time ++ (e :: rest).map ScoreEntry.time := by
    rw [List.map_cons, List.append_assoc]
    rfl
  rw [heq] at hmain
  refine ⟨?_, ?_, hmain⟩
  · have hlen : ((rest.foldl addScore (addScore b e)).map ScoreEntry.time).length ≤ 10 := by
      rw [hmain]
      exact List.length_take_le 10 _
    rw [List.length_map] at hlen
    exact hlen
  · rw [hmain]
    exact (sorted_le_mergeSort_times _).sublist (List.take_sublist _ _)

/-- C9 witness: inserting times 5 then 3 into an empty bucket gives a table
of at most ten entries, sorted ascending, holding the lowest times. -/
theorem claim9_witness :
    ([c9w1, c9w2].foldl addScore []).length ≤ 10 ∧
    List.Sorted (· ≤ ·) (([c9w1, c9w2].foldl addScore []).map ScoreEntry.time) ∧
    ([c9w1, c9w2].foldl addScore []).map ScoreEntry.time =
      ((([] : List ScoreEntry).map ScoreEntry.time ++
          [c9w1, c9w2].map ScoreEntry.time).mergeSort timeLeB).take 10 :=
  claim9_bucket [] [c9w1, c9w2] (List.cons_ne_nil _ _)

/-- C9 counterexample: inserting a single entry of time 2 into a starting
bucket holding time 1 retains the starting entry, so the result is not the
"10 lowest times inserted into that bucket" (which would be the inserted
time alone). -/
theorem claim9_counterexample :
    (addScore [c9e1] c9e2).map ScoreEntry.time ≠
      (([c9e2].map ScoreEntry.time).mergeSort timeLeB).take 10 := by
  have h1 : (addScore [c9e1] c9e2).map ScoreEntry.time = [c9e1.time, c9e2.time] := by
    unfold addScore
    rw [List.map_take, map_time_mergeSort]
    have hmap : ([c9e1] ++ [c9e2]).map ScoreEntry.time = [c9e1.time, c9e2.time] := rfl
    rw [hmap, mergeSort_of_sorted _ (by decide)]
    rfl
  have h2 : (([c9e2].map ScoreEntry.time).mergeSort timeLeB).take 10 = [c9e2.time] := by
    have hmap : [c9e2].map ScoreEntry.time = [c9e2.time] := rfl
    rw [hmap, mergeSort_of_sorted _ (by decide)]
    rfl
  rw [h1, h2]
  decide

/-- C10: in every reachable state `revealedCount` equals the number of
revealed non-mine cells; `revealMine` and `revealAllMines` never change
`revealedCount`; and once the game is started, flood fill from a non-mine
cell never changes any mine's revealed bit. -/
theorem claim10_revealed_count {s : GameState} (h : Reachable s) :
    s.revealedCount = revealedSafeCard s ∧
    (∀ row col : Nat, (revealMine s row col).revealedCount = s.revealedCount) ∧
    (revealAllMines s).revealedCount = s.revealedCount ∧
    (s.gameStarted = true → ∀ row col : Nat, (s.grid row col).isMine = false →
      ∀ r c : Nat, (s.grid r c).isMine = true →
        ((reveal s row col).grid r c).isRevealed = (s.grid r c).isRevealed) := by
  have hInv := Inv_of_reachable h
  refine ⟨hInv.2.2.2.1, fun row col => rfl, rfl, fun hst row col hm r c hmc => ?_⟩
  exact reveal_no_mine s row col (hInv.2.2.1 hst).1 hm r c hmc

/-- C10 witness: the count identities at a fresh 3×3 board with two mines. -/
theorem claim10_witness :
    (initState 3 3 2 false 0).revealedCount = revealedSafeCard (initState 3 3 2 false 0) ∧
    (∀ row col : Nat, (revealMine (initState 3 3 2 false 0) row col).revealedCount =
      (initState 3 3 2 false 0).revealedCount) ∧
    (revealAllMines (initState 3 3 2 false 0)).revealedCount =
      (initState 3 3 2 false 0).revealedCount ∧
    ((initState 3 3 2 false 0).gameStarted = true →
      ∀ row col : Nat, ((initState 3 3 2 false 0).grid row col).isMine = false →
      ∀ r c : Nat, ((initState 3 3 2 false 0).grid r c).isMine = true →
        ((reveal (initState 3 3 2 false 0) row col).grid r c).isRevealed =
          ((initState 3 3 2 false 0).grid r c).isRevealed) :=
  @claim10_revealed_count (initState 3 3 2 false 0) ⟨3, 3, 2, false, 0, [], by unfold Valid; decide, rfl⟩

end Minesweeper
